import Mathlib

/-!
# The hot-reload core of `gf run` (`commands/run/run.go`)

A shallow embedding of the three pieces of `run.go` that carry the logic of the
command, and the properties of them that the specification states:

* `isIgnoreReload`, the ignore-rule matcher (a rewriting pipeline that turns a
  gitignore-style rule into a regular expression, which is then compiled and run
  against the path);
* the watch loop of `Run` (the walk that computes the watched directories, the
  change-event handler with its `dirty` flag, the debounce timer);
* `App.Run`, one build-and-restart cycle.

Go `string`s are modelled as `List Char` (a sequence of code points; the
functions used by `run.go` only look for ASCII characters, so on valid UTF-8
this agrees with their byte-wise definition).  Paths follow the Unix
convention: the separator is `/`.
-/

namespace GfRun

/-! ## `strings` -/

/-- Go `strings.HasPrefix(s, prefix)`. -/
def startsWith (s p : List Char) : Bool := p.isPrefixOf s

/-- Go `strings.HasSuffix(s, suffix)`. -/
def endsWith (s p : List Char) : Bool := p.isSuffixOf s

/-- Worker of `replaceAll`: `skip` is the number of characters of the input that
still belong to the occurrence of `old` that was just replaced. -/
def replaceGo (old new : List Char) : Nat → List Char → List Char
  | _, [] => []
  | skip + 1, _ :: cs => replaceGo old new skip cs
  | 0, c :: cs =>
    if old.isPrefixOf (c :: cs) then new ++ replaceGo old new (old.length - 1) cs
    else c :: replaceGo old new 0 cs

/-- Go `strings.Replace(s, old, new, -1)` for a non-empty `old`: every
non-overlapping occurrence of `old`, found from left to right, is replaced by
`new`.  `run.go` also calls `regexp.MustCompile(re).ReplaceAllString(s, repl)`
with expressions `re` that are escaped literal texts (such as `/\*\*/`) and
templates `repl` without a `$name` reference (the `$` of `#$~` is followed by
`~`, which is no name, so it stands for itself): those calls are this function
too, with `old` the literal text. -/
def replaceAll (s old new : List Char) : List Char := replaceGo old new 0 s

/-! ## `regexp`: syntax trees and matching

`regexp` is Go's standard library; what `isIgnoreReload` needs of it is
modelled here: the parser for the part of the RE2 syntax listed at `parseStep`,
and the answer of `MatchString`, that is, whether some substring of the text is
matched. -/

/-- Syntax tree of a regular expression (the operators of Go's `regexp/syntax`
that the modelled fragment produces, under the flags of `regexp.Compile`). -/
inductive Regex where
  /-- Go `OpEmptyMatch`: matches the empty string. -/
  | empty
  /-- Go `OpLiteral`: one character. -/
  | lit (c : Char)
  /-- Go `OpAnyCharNotNL`: `.`, any character except a newline. -/
  | anyNotNL
  /-- Go `OpCharClass`: `[...]` (`neg = false`) or `[^...]` (`neg = true`) over
  inclusive ranges. -/
  | cls (neg : Bool) (ranges : List (Char × Char))
  /-- Go `OpBeginText`: `^`. -/
  | bol
  /-- Go `OpEndText`: `$`. -/
  | eol
  /-- Go `OpConcat`. -/
  | cat (a b : Regex)
  /-- Go `OpAlternate`. -/
  | alt (a b : Regex)
  /-- Go `OpStar`. -/
  | star (a : Regex)
  /-- Go `OpPlus`. -/
  | plus (a : Regex)
  /-- Go `OpQuest`. -/
  | quest (a : Regex)
  /-- Go `OpCapture`: a parenthesised group. -/
  | cap (a : Regex)
  deriving DecidableEq

/-- A position in the text being searched: whether it is the start of the text,
and the text that remains. -/
abbrev Pos := Bool × List Char

/-- Membership of a character in a class. A negated class matches every
character outside the ranges, the newline too (flag `ClassNL`). -/
def inClass (neg : Bool) (ranges : List (Char × Char)) (c : Char) : Bool :=
  (ranges.any fun r => decide (r.1 ≤ c) && decide (c ≤ r.2)) != neg

/-- Positions reachable by iterating `f`; an iteration that consumes nothing
leads nowhere new and is left out, so at most `p.2.length` iterations count. -/
def starRun (f : Pos → List Pos) : Nat → Pos → List Pos
  | 0, p => [p]
  | n + 1, p => p :: ((f p).filter fun q => decide (q.2.length < p.2.length)).flatMap (starRun f n)

/-- The positions at which a match of the expression that starts at `p` can end. -/
def Regex.run : Regex → Pos → List Pos
  | .empty, p => [p]
  | .lit _, (_, []) => []
  | .lit c, (_, x :: xs) => if x = c then [(false, xs)] else []
  | .anyNotNL, (_, []) => []
  | .anyNotNL, (_, x :: xs) => if x = '\n' then [] else [(false, xs)]
  | .cls _ _, (_, []) => []
  | .cls neg rs, (_, x :: xs) => if inClass neg rs x then [(false, xs)] else []
  | .bol, (b, s) => if b then [(b, s)] else []
  | .eol, (b, s) => if s.isEmpty then [(b, s)] else []
  | .cat a b, p => (a.run p).flatMap fun q => b.run q
  | .alt a b, p => a.run p ++ b.run p
  | .star a, p => starRun (fun q => a.run q) p.2.length p
  | .plus a, p => (a.run p).flatMap fun q => starRun (fun q => a.run q) q.2.length q
  | .quest a, p => a.run p ++ [p]
  | .cap a, p => a.run p

/-- Is there a match starting at the current position or at a later one? -/
def Regex.searchFrom (r : Regex) : Bool → List Char → Bool
  | b, [] => !(r.run (b, [])).isEmpty
  | b, c :: cs => !(r.run (b, c :: cs)).isEmpty || r.searchFrom false cs

/-- Go `(*Regexp).MatchString(s)`: true when the expression matches a substring
of `s`. -/
def Regex.matchString (r : Regex) (s : List Char) : Bool := r.searchFrom true s

/-! ## `regexp`: the parser -/

/-- The group being parsed: the alternatives already closed by a `|` and the
pieces of the current concatenation, the most recent first in both. -/
structure Frame where
  alts : List Regex
  items : List Regex

/-- Parser state: the innermost open group, the enclosing open groups, and
whether the last token was a repetition operator. -/
structure PState where
  cur : Frame
  outer : List Frame
  lastRep : Bool

/-- Concatenation of the pieces, in order. -/
def catAll : List Regex → Regex
  | [] => .empty
  | [r] => r
  | r :: rs => .cat r (catAll rs)

/-- Alternation of the branches, in order. -/
def altAll : List Regex → Regex
  | [] => .empty
  | [r] => r
  | r :: rs => .alt r (altAll rs)

/-- The expression of a finished group. -/
def closeFrame (f : Frame) : Regex :=
  altAll (catAll f.items.reverse :: f.alts).reverse

/-- Push one piece on the current concatenation. -/
def PState.push (st : PState) (r : Regex) : PState :=
  { cur := { alts := st.cur.alts, items := r :: st.cur.items }, outer := st.outer,
    lastRep := false }

/-- Apply a repetition operator to the last piece. Stacked operators (`a**`)
and an operator without an argument (`(*`, `|*`, a leading `*`) are errors. -/
def PState.rep (st : PState) (op : Regex → Regex) : Option PState :=
  if st.lastRep then none
  else match st.cur.items with
    | [] => none
    | r :: rs =>
      some { cur := { alts := st.cur.alts, items := op r :: rs }, outer := st.outer,
             lastRep := true }

/-- An ASCII character that is no letter and no digit: after a backslash it
stands for itself. -/
def isPunct (c : Char) : Bool := decide (c.toNat < 128) && !c.isAlphanum

/-- One character of a class, possibly escaped. -/
def parseClassChar : List Char → Option (Char × List Char)
  | [] => none
  | c :: t =>
    if c = '\\' then
      match t with
      | [] => none
      | d :: t' => if isPunct d then some (d, t') else none
    else some (c, t)

/-- The items of a class up to the closing `]`. `first` is true before the
first item, where a `]` is a literal. -/
def parseClassItems : Nat → Bool → List (Char × Char) → List Char →
    Option (List (Char × Char) × List Char)
  | 0, _, _, _ => none
  | n + 1, first, acc, t =>
    if !first && t.head? = some ']' then some (acc.reverse, t.tail)
    else if startsWith t ['[', ':'] then none
    else match parseClassChar t with
      | none => none
      | some (lo, t1) =>
        match t1 with
        | '-' :: c :: t2 =>
          if c = ']' then parseClassItems n false ((lo, lo) :: acc) t1
          else match parseClassChar (c :: t2) with
            | none => none
            | some (hi, t3) =>
              if hi < lo then none else parseClassItems n false ((lo, hi) :: acc) t3
        | _ => parseClassItems n false ((lo, lo) :: acc) t1

/-- A class, the text after its `[`. -/
def parseClass (t : List Char) : Option (Regex × List Char) :=
  let neg := t.head? = some '^'
  let t := if neg then t.tail else t
  match parseClassItems (t.length + 1) true [] t with
  | none => none
  | some (rs, t') => some (.cls neg rs, t')

/-- After a repetition operator a `?` makes it non-greedy, which changes which
match is preferred and not whether there is one. -/
def dropLazy : List Char → List Char
  | '?' :: t => t
  | t => t

/-- One token of the parse loop of Go's `syntax.Parse` under the flags of
`regexp.Compile` (`syntax.Perl`): the new state and the rest of the text.

The fragment modelled: literal characters, `.`, `^`, `$`, groups `( )`, `|`,
the operators `*`, `+`, `?` (with their non-greedy forms), classes `[...]` of
characters, escaped punctuation and ranges, and a backslash before an ASCII
punctuation character. Outside the fragment, where the model answers `none`
although Go may accept the expression: groups that start with `(?`, counted
repetition `{n,m}` (every `{`), a backslash before a letter or a digit, and
a `[:` inside a class (the POSIX classes `[[:name:]]`). -/
def parseStep (st : PState) : List Char → Option (PState × List Char)
  | [] => none
  | c :: t =>
    if c = '(' then
      if t.head? = some '?' then none
      else some ({ cur := ⟨[], []⟩, outer := st.cur :: st.outer, lastRep := false }, t)
    else if c = '|' then
      some ({ cur := ⟨catAll st.cur.items.reverse :: st.cur.alts, []⟩, outer := st.outer,
              lastRep := false }, t)
    else if c = ')' then
      match st.outer with
      | [] => none
      | f :: fs =>
        some ({ cur := ⟨f.alts, .cap (closeFrame st.cur) :: f.items⟩, outer := fs,
                lastRep := false }, t)
    else if c = '^' then some (st.push .bol, t)
    else if c = '$' then some (st.push .eol, t)
    else if c = '.' then some (st.push .anyNotNL, t)
    else if c = '[' then
      match parseClass t with
      | none => none
      | some (r, t') => some (st.push r, t')
    else if c = '*' then (st.rep .star).map fun s => (s, dropLazy t)
    else if c = '+' then (st.rep .plus).map fun s => (s, dropLazy t)
    else if c = '?' then (st.rep .quest).map fun s => (s, dropLazy t)
    else if c = '{' then none
    else if c = '\\' then
      match t with
      | [] => none
      | d :: t' => if isPunct d then some (st.push (.lit d), t') else none
    else some (st.push (.lit c), t)

/-- The parse loop; every token consumes at least one character, so fuel equal
to the length of the text is enough. At the end every group must be closed. -/
def parseLoop : Nat → PState → List Char → Option Regex
  | _, st, [] => if st.outer.isEmpty then some (closeFrame st.cur) else none
  | 0, _, _ :: _ => none
  | n + 1, st, c :: t =>
    match parseStep st (c :: t) with
    | none => none
    | some (st', t') => parseLoop n st' t'

/-- The state at the start of an expression. -/
def PState.init : PState := { cur := ⟨[], []⟩, outer := [], lastRep := false }

/-- Go `regexp.Compile(expr)`: `none` is a compile error. -/
def compile (expr : List Char) : Option Regex :=
  parseLoop expr.length PState.init expr

/-- The call `regexp.MustCompile(re).MatchString(s)`. The two expressions
`run.go` passes are constants that compile (`compile_hashBang`,
`compile_slashStarDot`), so the panic of `MustCompile` never happens. -/
def mustMatch (re s : List Char) : Bool :=
  match compile re with
  | none => false
  | some r => r.matchString s

/-! ## `isIgnoreReload` -/

/-- The placeholder `magicStar` of `isIgnoreReload`. -/
def magicStar : List Char := "#$~".toList

/-- Lines 269-300 of `run.go`: the rewriting of the rule (after the `!` was
taken off) into the body of a regular expression. -/
def rewritePattern (pattern : List Char) : List Char :=
  -- strip a leading `#` or `!`
  let pattern := if mustMatch "^(\\#|\\!)".toList pattern then pattern.tail else pattern
  -- `foo/*.blah`: prepend the `/`
  let pattern :=
    if mustMatch "([^\\/+])/.*\\*\\.".toList pattern && pattern.head? != some '/'
    then '/' :: pattern else pattern
  -- escape the `.`
  let pattern := replaceAll pattern ".".toList "\\.".toList
  -- `/**/`
  let pattern := if startsWith pattern "/**/".toList then pattern.tail else pattern
  let pattern := replaceAll pattern "/**/".toList "(/|/.+/)".toList
  let pattern := replaceAll pattern "**/".toList ("(|.".toList ++ magicStar ++ "/)".toList)
  let pattern := replaceAll pattern "/**".toList ("(|/.".toList ++ magicStar ++ ")".toList)
  -- the `*`
  let pattern := replaceAll pattern "\\*".toList ('\\' :: magicStar)
  let pattern := replaceAll pattern "*".toList "([^/]*)".toList
  -- the `?`
  let pattern := replaceAll pattern "?".toList "\\?".toList
  replaceAll pattern magicStar "*".toList

/-- Lines 302-313 of `run.go`: the expression built around the rewritten rule. -/
def buildExpr (pattern : List Char) : List Char :=
  let expr :=
    if endsWith pattern "/".toList then pattern ++ "(|.*)$".toList
    else pattern ++ "(|/.*)$".toList
  if startsWith expr "/".toList then "^(|/)".toList ++ expr.tail
  else "^(|.*/)".toList ++ expr

/-- The function `isIgnoreReload(pattern, path string) bool` of `run.go`. -/
def isIgnoreReload (pattern path : List Char) : Bool :=
  if pattern.isEmpty then false
  else
    let negatePattern := pattern.head? == some '!'
    let pattern := if negatePattern then pattern.tail else pattern
    let expr := buildExpr (rewritePattern pattern)
    match compile expr with
    | none => false
    | some reg =>
      let matched := reg.matchString path
      if matched && !negatePattern then true else false

/-- The table `asserts` of `Test_isIgnoreReload` (`reload_ingore_test.go`):
pattern, path, and the answer the test expects. -/
def asserts : List (String × String × Bool) :=
  [("a.txt", "a.txt", true),
   ("*.txt", "a.txt", true),
   ("dir/a.txt", "dir/a.txt", true),
   ("dir/*.txt", "dir/a.txt", true),
   ("dir2/a.txt", "dir1/dir2/a.txt", true),
   ("dir3/a.txt", "dir1/dir2/dir3/a.txt", true),
   ("a.txt", "dir/a.txt", true),
   ("*.txt", "dir/a.txt", true),
   ("a.txt", "dir1/dir2/a.txt", true),
   ("dir2/a.txt", "dir1/dir2/a.txt", true),
   ("dir", "dir", true),
   ("dir/", "dir", false),
   ("dir1/dir2/", "dir1/dir2", false),
   ("/a.txt", "a.txt", true),
   ("/dir/a.txt", "dir/a.txt", true),
   ("/dir1/a.txt", "dir/dir1/a.txt", false),
   ("/a.txt", "dir/a.txt", false),
   ("a.txt", "dir/b.txt", false),
   ("*.txt", "dir/b.txt", true),
   ("dir/*.txt", "dir/b.txt", true),
   ("dir/*.txt", "dir/dir2/b.txt", false),
   ("!b.txt", "b.txt", false),
   ("!b.txt", "dir/b.txt", false),
   ("!/b.txt", "dir/b.txt", false),
   ("/*.txt", "dir/b.txt", false)]

/-! ## Paths and names -/

/-- The final segment of a path: the text after its last `/`, the whole path
when it has none. -/
def lastSegment (p : List Char) : List Char :=
  (p.reverse.takeWhile fun c => c != '/').reverse

/-- The directory part of a path: the text up to and including its last `/`,
empty when it has none. -/
def dirPart (p : List Char) : List Char :=
  (p.reverse.dropWhile fun c => c != '/').reverse

/-- The first segment of a path: the text before its first `/`. -/
def firstSegment (p : List Char) : List Char :=
  p.takeWhile fun c => c != '/'

/-- Characters with a meaning in the expression handed to `regexp.Compile`
(or, for `*` and `?`, in the rule). -/
def isSyntaxChar (c : Char) : Bool :=
  c == '\\' || c == '+' || c == '*' || c == '?' || c == '(' || c == ')' || c == '|' ||
    c == '[' || c == '{' || c == '^' || c == '$'

/-- A plain name: not empty, without `/`, without a character that is syntax
in a rule or in the expression made from it, and not starting with `!` or `#`. -/
def isPlainName (s : List Char) : Bool :=
  !s.isEmpty && s.all (fun c => c != '/' && !isSyntaxChar c) &&
    s.head? != some '!' && s.head? != some '#'

/-- A literal name: not empty, without `/` and without a character that is
syntax in a rule or in the expression made from it. -/
def isLiteralName (s : List Char) : Bool :=
  !s.isEmpty && s.all fun c => c != '/' && !isSyntaxChar c

/-- Go `strings.Join(segs, "/")`. -/
def joinSlash : List (List Char) → List Char
  | [] => []
  | [s] => s
  | s :: rest => s ++ '/' :: joinSlash rest

/-! ## `filepath` and `gfile` -/

/-- Go `filepath.Base(path)`: the last element of the path, after the trailing
slashes are taken off; `.` for the empty path and `/` for a path of slashes.
`gfile.Basename` is this function. -/
def base (path : List Char) : List Char :=
  if path.isEmpty then ['.']
  else
    let p := lastSegment (path.reverse.dropWhile fun c => c == '/').reverse
    if p.isEmpty then ['/'] else p

/-- Function `gfile.ExtName(path)`: the extension of the final element without its dot,
that is `strings.TrimLeft(gfile.Ext(path), ".")`, where `gfile.Ext` is
`filepath.Ext`, the suffix of the final element that starts at its last dot
(empty without a dot), cut before its first `?`. -/
def extName (path : List Char) : List Char :=
  let last := lastSegment path
  if '.' ∈ last then
    (last.reverse.takeWhile fun c => c != '.').reverse.takeWhile fun c => c != '?'
  else []

/-- Function `gfile.Name(path)`: the base name without its extension. -/
def fileName (path : List Char) : List Char :=
  let b := base path
  if '.' ∈ b then (b.reverse.dropWhile fun c => c != '.').reverse.dropLast else b

/-- Function `gstr.TrimRight(s, sep)`: the text without the white space and the
separators at its end. -/
def trimRight (sep : Char) (s : List Char) : List Char :=
  (s.reverse.dropWhile fun c => c == sep || [0, 9, 10, 11, 12, 13, 32].contains c.toNat).reverse

/-- Function `gfile.Join(a, b)`: the two elements, each trimmed on the right,
with the separator of the operating system between them. -/
def gfileJoin (sep : Char) (a b : List Char) : List Char :=
  let a := trimRight sep a
  (if a.isEmpty then [] else a ++ [sep]) ++ trimRight sep b

/-- Go `filepath.Join(dir, name)` for a clean directory path and the name of an
entry of that directory. -/
def joinPath (dir name : List Char) : List Char :=
  if dir.getLast? = some '/' then dir ++ name else dir ++ '/' :: name

/-! ## The watch loop of `Run` (lines 131-193) -/

/-- The shared state of the watch loop, with two counters added for the
statements about it. -/
structure Watch where
  /-- The flag `dirty` (a `gtype.Bool`). -/
  dirty : Bool
  /-- Timers set by `gtimer.SetTimeout` that have not fired yet. -/
  timers : Nat
  /-- Timer callbacks that are inside `app.Run()`. -/
  rebuilding : Nat
  /-- The `go app.Run()` of line 192 was executed. -/
  started : Bool
  /-- The `app.Run()` started by line 192 has not returned yet. -/
  initial : Bool
  /-- Number of calls of `gtimer.SetTimeout` so far: the rebuilds scheduled. -/
  scheduled : Nat
  deriving DecidableEq

/-- The state when the watches have been registered. -/
def Watch.init : Watch :=
  { dirty := false, timers := 0, rebuilding := 0, started := false, initial := false,
    scheduled := 0 }

/-- The callback registered with `gfsnotify.Add` (lines 163-187), run for a
change event on `path`. The callbacks of concurrent events are ordered by the
atomic `dirty.Cas`, so one call is one step. -/
def onChange (reloadIgnores : List (List Char)) (path : List Char) (w : Watch) : Watch :=
  if extName path != "go".toList then w
  else if base path == "data-swagger.go".toList then w
  else if w.dirty then w
  else
    let w := { w with dirty := true }
    if reloadIgnores.any fun pattern => isIgnoreReload pattern path then w
    else { w with timers := w.timers + 1, scheduled := w.scheduled + 1 }

/-- The steps of the watch loop. -/
inductive Step where
  /-- Line 192, `go app.Run()`: the initial build starts. -/
  | startup
  /-- The initial build returns. -/
  | initialDone
  /-- A change event on a path is handled. -/
  | change (path : List Char)
  /-- A debounce timer fires, its callback enters `app.Run()`. -/
  | timerFire
  /-- The `app.Run()` of a timer callback returns and the deferred
  `dirty.Set(false)` runs. -/
  | rebuildDone
  deriving DecidableEq

/-- One step of the watch loop; a step that is not enabled changes nothing. -/
def step (reloadIgnores : List (List Char)) (w : Watch) : Step → Watch
  | .startup => if w.started then w else { w with started := true, initial := true }
  | .initialDone => { w with initial := false }
  | .change path => onChange reloadIgnores path w
  | .timerFire =>
    if w.timers = 0 then w
    else { w with timers := w.timers - 1, rebuilding := w.rebuilding + 1 }
  | .rebuildDone =>
    if w.rebuilding = 0 then w
    else { w with rebuilding := w.rebuilding - 1, dirty := false }

/-- A run of the watch loop. -/
def runSteps (reloadIgnores : List (List Char)) (w : Watch) (steps : List Step) : Watch :=
  steps.foldl (step reloadIgnores) w

/-- The number of rebuild cycles (`App.Run`) in progress. -/
def Watch.inProgress (w : Watch) : Nat := w.rebuilding + if w.initial then 1 else 0

/-- A change event on `path` survives the filter of the callback. -/
def survives (reloadIgnores : List (List Char)) (path : List Char) : Bool :=
  extName path == "go".toList && base path != "data-swagger.go".toList &&
    !reloadIgnores.any fun pattern => isIgnoreReload pattern path

/-! ## The walk that computes the watched directories (lines 138-158) -/

mutual
/-- A file tree: a file, or a directory with its entries in the order of
`readDirNames`. -/
inductive FsNode where
  | file (name : List Char)
  | dir (name : List Char) (children : FsForest)
/-- The entries of a directory. -/
inductive FsForest where
  | nil
  | cons (node : FsNode) (rest : FsForest)
end

/-- The name of an entry. -/
def FsNode.name : FsNode → List Char
  | .file n => n
  | .dir n _ => n

/-- What a `filepath.WalkFunc` returns: `nil` or `filepath.SkipDir`. -/
inductive WalkRet where
  | ok
  | skipDir
  deriving DecidableEq

mutual
/-- Go `filepath.walk` on a tree that is read without error: the function is
called on the node; for a directory on which it returned `nil`, the entries are
walked in order. -/
def walk {σ : Type} (fn : List Char → Bool → σ → σ × WalkRet) (path : List Char) :
    FsNode → σ → σ × WalkRet
  | .file _, s => fn path false s
  | .dir _ children, s =>
    match fn path true s with
    | (s', .skipDir) => (s', .skipDir)
    | (s', .ok) => walkEntries fn path children s'
/-- The loop of `filepath.walk` over the entries of a directory: `SkipDir` from
a directory skips that directory only, `SkipDir` from a file ends the loop. -/
def walkEntries {σ : Type} (fn : List Char → Bool → σ → σ × WalkRet) (path : List Char) :
    FsForest → σ → σ × WalkRet
  | .nil, s => (s, .ok)
  | .cons (.file n) rest, s =>
    match walk fn (joinPath path n) (.file n) s with
    | (s', .skipDir) => (s', .skipDir)
    | (s', .ok) => walkEntries fn path rest s'
  | .cons (.dir n cs) rest, s =>
    walkEntries fn path rest (walk fn (joinPath path n) (.dir n cs) s).1
end

/-- The function passed to `filepath.Walk` at line 139, with `watchDirs` as
the state. `isDir` is `info.IsDir()`. -/
def watchFn (reloadIgnores : List (List Char)) (path : List Char) (isDir : Bool)
    (watchDirs : List (List Char)) : List (List Char) × WalkRet :=
  if !isDir then (watchDirs, .ok)
  else if startsWith (base path) ".".toList then (watchDirs, .skipDir)
  else if reloadIgnores.any fun pattern => isIgnoreReload pattern path then
    (watchDirs, .skipDir)
  else (watchDirs ++ [path], .ok)

/-- Lines 133-158: `watchDirs` and `recursive` for the tree `tree` found at the
path `root`. -/
def watchSet (root : List Char) (tree : FsNode) (reloadIgnores : List (List Char)) :
    List (List Char) × Bool :=
  if reloadIgnores.length > 0 then ((walk (watchFn reloadIgnores) root tree []).1, false)
  else ([root], true)

/-- A directory passes the tests of the walk: its base name does not start with
`.` and no ignore rule matches its path. -/
def keep (reloadIgnores : List (List Char)) (path : List Char) : Bool :=
  !startsWith (base path) ".".toList &&
    !reloadIgnores.any fun pattern => isIgnoreReload pattern path

mutual
/-- The directories of a tree, each with the paths of the directories on the
way from the root down to it, itself included. -/
def dirsOf (path : List Char) : FsNode → List (List Char × List (List Char))
  | .file _ => []
  | .dir _ children =>
    (path, [path]) :: (dirsOfEntries path children).map fun d => (d.1, path :: d.2)
/-- The directories below the entries of a directory. -/
def dirsOfEntries (path : List Char) : FsForest → List (List Char × List (List Char))
  | .nil => []
  | .cons node rest => dirsOf (joinPath path node.name) node ++ dirsOfEntries path rest
end

/-- The watch set in the words of the specification: the directories all of
whose ancestors from the root down, and themselves, pass the tests. -/
def keptDirs (reloadIgnores : List (List Char)) (root : List Char) (tree : FsNode) :
    List (List Char) :=
  ((dirsOf root tree).filter fun d => d.2.all (keep reloadIgnores)).map fun d => d.1

/-- The kept directories below the entries of a directory. -/
def keptEntries (reloadIgnores : List (List Char)) (path : List Char) (forest : FsForest) :
    List (List Char) :=
  ((dirsOfEntries path forest).filter fun d => d.2.all (keep reloadIgnores)).map fun d => d.1

/-! ## `App.Run`: one build-and-restart cycle (lines 196-254) -/

/-- The struct `App`. -/
structure App where
  File : List Char
  Options : List Char
  Args : List Char
  Swagger : Bool

/-- A `*gproc.Process`: the command it runs, whether it was made by
`gproc.NewProcessCmd` (through the shell) or by `gproc.NewProcess`, and a serial
number that tells two handles for the same command apart. -/
structure Process where
  command : List Char
  viaShell : Bool
  serial : Nat
  deriving DecidableEq

/-- The package-level state of the supervisor: the variable `process`, and the
number of handles created so far. -/
structure Supervisor where
  process : Option Process
  created : Nat
  deriving DecidableEq

/-- What the outside world answers during one cycle. -/
structure Outcomes where
  /-- Whether `runtime.GOOS == "windows"`. -/
  windows : Bool
  /-- Whether `gfile.Exists(outputPath)`. -/
  outputExists : Bool
  /-- Whether `gproc.ShellRun("gf swagger")` returns an error. -/
  swaggerErr : Bool
  /-- Whether `gfile.Exists("swagger")`. -/
  swaggerDir : Bool
  /-- Whether `gproc.ShellRun(packCmd)` returns an error. -/
  packErr : Bool
  /-- Whether `gproc.ShellExec(buildCommand)`, the compiler, returns an error. -/
  buildErr : Bool

/-- The calls of one cycle that act on the outside world (the logging calls
and their arguments are left out). -/
inductive Action where
  | rename (src dst : List Char)
  | shellRun (cmd : List Char)
  | shellExec (cmd : List Char)
  | kill (p : Process)
  | start (p : Process)
  deriving DecidableEq

/-- Is the action a `process.Kill()`? -/
def Action.isKill : Action → Bool
  | .kill _ => true
  | _ => false

/-- Is the action a `process.Start()`? -/
def Action.isStart : Action → Bool
  | .start _ => true
  | _ => false

/-- The method `(app *App) Run()`: the new state of the supervisor and the
actions performed, in order. `packedGoFileName` is the constant
`swagger.PackedGoFileName`, which is declared outside `run.go`. The errors of
`gfile.Rename`, `process.Kill` and `process.Start` are only logged, so their
outcome does not change what the cycle does. The separator of `gfile.Join` is
`\` on Windows and `/` elsewhere. -/
def App.Run (app : App) (packedGoFileName : List Char) (o : Outcomes) (s : Supervisor) :
    Supervisor × List Action :=
  let outputPath := gfileJoin (if o.windows then '\\' else '/') "bin".toList (fileName app.File)
  let outputPath := if o.windows then outputPath ++ ".exe".toList else outputPath
  let acts : List Action :=
    if o.windows && o.outputExists then [.rename outputPath (outputPath ++ "~".toList)] else []
  let packCmd := "gf pack swagger packed/".toList ++ packedGoFileName ++ " -n packed -y".toList
  if app.Swagger && o.swaggerErr then (s, acts ++ [.shellRun "gf swagger".toList])
  else
    let acts := if app.Swagger then acts ++ [.shellRun "gf swagger".toList] else acts
    if app.Swagger && o.swaggerDir && o.packErr then (s, acts ++ [.shellRun packCmd])
    else
      let acts := if app.Swagger && o.swaggerDir then acts ++ [.shellRun packCmd] else acts
      let buildCommand :=
        "go build -o ".toList ++ outputPath ++ " ".toList ++ app.Options ++ " ".toList ++ app.File
      let acts := acts ++ [.shellExec buildCommand]
      if o.buildErr then (s, acts)
      else
        let acts := match s.process with
          | some p => acts ++ [.kill p]
          | none => acts
        let runCommand := outputPath ++ " ".toList ++ app.Args
        let p : Process := { command := runCommand, viaShell := !o.windows, serial := s.created }
        ({ process := some p, created := s.created + 1 }, acts ++ [.start p])

/-! ## Definitions used by the proofs -/

/-- The text with every `.` escaped by a backslash. -/
def escDots (s : List Char) : List Char :=
  s.flatMap fun c => if c = '.' then ['\\', '.'] else [c]

/-- The parse loop run with exactly the fuel it needs. -/
def parseAll (st : PState) (t : List Char) : Option Regex := parseLoop t.length st t

/-- The state after a run of literals. -/
def pushLits (st : PState) (x : List Char) : PState :=
  x.foldl (fun s c => s.push (.lit c)) st

/-- Group `(|.*/)`: nothing, or any directory prefix. -/
def gAnyDir : Regex := .cap (.alt .empty (.cat (.star .anyNotNL) (.lit '/')))
/-- Group `(|/)`: nothing, or the root slash. -/
def gRoot : Regex := .cap (.alt .empty (.lit '/'))
/-- Group `(|/.*)`: nothing, or anything beneath. -/
def gBelow : Regex := .cap (.alt .empty (.cat (.lit '/') (.star .anyNotNL)))
/-- Group `(|.*)`: anything. -/
def gRest : Regex := .cap (.alt .empty (.star .anyNotNL))

/-- The expression that `isIgnoreReload` compiles for a literal rule `x`:
`^`, then `(|/)` when the rule is rooted and `(|.*/)` otherwise, the characters
of the rule, then `(|.*)` when the rule ends in `/` and `(|/.*)` otherwise, `$`. -/
def litRegex (x : List Char) : Regex :=
  catAll ((if x.head? = some '/' then Regex.bol :: gRoot :: x.tail.map Regex.lit
      else Regex.bol :: gAnyDir :: x.map Regex.lit) ++
    [if x.getLast? = some '/' then gRest else gBelow, Regex.eol])

/-- The expression compiled for the rule `*.txt`: `^(|.*/)([^/]*)\.txt(|/.*)$`. -/
def starTxtRegex : Regex :=
  .cat .bol (catAll ([gAnyDir, .cap (.star (.cls true [('/', '/')]))] ++
    (".txt".toList.map Regex.lit ++ [gBelow, .eol])))

/-! # Theorems -/

/-! ## Lemmas: `replaceAll` -/

theorem replaceGo_no_occurrence (old new : List Char) (c : Char) (hc : c ∈ old) :
    ∀ s : List Char, c ∉ s → replaceGo old new 0 s = s := by
  intro s
  induction s with
  | nil => intro _; rfl
  | cons x xs ih =>
    intro hs
    have hx : c ≠ x := fun h => hs (h ▸ List.mem_cons_self _ _)
    have hxs : c ∉ xs := fun h => hs (List.mem_cons_of_mem _ h)
    have hpre : old.isPrefixOf (x :: xs) = false := by
      rw [Bool.eq_false_iff]
      intro hp
      have hp' : old <+: x :: xs := List.isPrefixOf_iff_prefix.mp hp
      exact hs (hp'.subset hc)
    simp [replaceGo, hpre, ih hxs]

theorem replaceAll_no_occurrence (s old new : List Char) (c : Char) (hc : c ∈ old)
    (hs : c ∉ s) : replaceAll s old new = s :=
  replaceGo_no_occurrence old new c hc s hs

theorem replaceAll_dot (s : List Char) :
    replaceAll s ['.'] ['\\', '.'] = escDots s := by
  induction s with
  | nil => rfl
  | cons x xs ih =>
    unfold replaceAll at ih ⊢
    by_cases hx : x = '.'
    · subst hx
      simp [replaceGo, escDots, List.isPrefixOf] at ih ⊢
      exact ih
    · have hx' : ('.' == x) = false := by
        simp; exact fun h => hx h.symm
      simp [replaceGo, escDots, List.isPrefixOf, hx, hx'] at ih ⊢
      exact ih

theorem mem_escDots {s : List Char} {c : Char} (h : c ∈ escDots s) : c ∈ s ∨ c = '\\' := by
  simp only [escDots, List.mem_flatMap] at h
  obtain ⟨a, ha, hca⟩ := h
  by_cases hdot : a = '.'
  · subst hdot
    simp at hca
    rcases hca with h | h
    · exact Or.inr h
    · exact Or.inl (h ▸ ha)
  · simp [hdot] at hca
    exact Or.inl (hca ▸ ha)

theorem escDots_append (s t : List Char) : escDots (s ++ t) = escDots s ++ escDots t := by
  simp [escDots]

theorem escDots_cons (c : Char) (s : List Char) :
    escDots (c :: s) = (if c = '.' then ['\\', '.'] else [c]) ++ escDots s := by
  simp [escDots]

/-! ## Lemmas: matching -/

theorem starRun_fuel (f : Pos → List Pos) :
    ∀ (n m : Nat) (p : Pos), p.2.length ≤ n → p.2.length ≤ m →
      starRun f n p = starRun f m p := by
  intro n
  induction n with
  | zero =>
    intro m p hn _
    cases m with
    | zero => rfl
    | succ m =>
      have h0 : p.2.length = 0 := Nat.le_zero.mp hn
      simp [starRun, h0]
  | succ n ih =>
    intro m p hn hm
    cases m with
    | zero =>
      have h0 : p.2.length = 0 := Nat.le_zero.mp hm
      simp [starRun, h0]
    | succ m =>
      simp only [starRun]
      congr 1
      apply List.flatMap_congr
      intro q hq
      have hlt : q.2.length < p.2.length := by
        simpa using (List.mem_filter.mp hq).2
      exact ih m q (by omega) (by omega)

theorem run_star_unfold (a : Regex) (p : Pos) :
    (Regex.star a).run p =
      p :: ((a.run p).filter fun q => decide (q.2.length < p.2.length)).flatMap
        (Regex.star a).run := by
  simp only [Regex.run]
  cases hlen : p.2.length with
  | zero => simp [starRun]
  | succ n =>
    simp only [starRun, hlen]
    congr 1
    apply List.flatMap_congr
    intro q hq
    have hlt : q.2.length < n + 1 := by
      simpa using (List.mem_filter.mp hq).2
    exact starRun_fuel _ n q.2.length q (by omega) (le_refl _)

theorem mem_run_star_self (a : Regex) (p : Pos) : p ∈ (Regex.star a).run p := by
  rw [run_star_unfold]; exact List.mem_cons_self _ _

theorem mem_run_star_step (a : Regex) {p q r : Pos} (hq : q ∈ a.run p)
    (hlt : q.2.length < p.2.length) (hr : r ∈ (Regex.star a).run q) :
    r ∈ (Regex.star a).run p := by
  rw [run_star_unfold]
  apply List.mem_cons_of_mem
  rw [List.mem_flatMap]
  exact ⟨q, List.mem_filter.mpr ⟨hq, by simpa using hlt⟩, hr⟩

theorem starRun_suffix (f : Pos → List Pos) (hf : ∀ p q, q ∈ f p → q.2 <:+ p.2) :
    ∀ (n : Nat) (p q : Pos), q ∈ starRun f n p → q.2 <:+ p.2 := by
  intro n
  induction n with
  | zero =>
    intro p q hq
    simp [starRun] at hq
    subst hq
    exact List.suffix_refl _
  | succ n ih =>
    intro p q hq
    simp only [starRun, List.mem_cons, List.mem_flatMap, List.mem_filter] at hq
    rcases hq with hq | ⟨m, ⟨hm, _⟩, hqm⟩
    · subst hq; exact List.suffix_refl _
    · exact (ih m q hqm).trans (hf p m hm)

/-- A match consumes a prefix of the remaining text. -/
theorem run_suffix : ∀ (r : Regex) (p q : Pos), q ∈ r.run p → q.2 <:+ p.2 := by
  intro r
  induction r with
  | empty =>
    intro p q hq
    simp [Regex.run] at hq
    subst hq; exact List.suffix_refl _
  | lit c =>
    intro p q hq
    obtain ⟨b, s⟩ := p
    cases s with
    | nil => simp [Regex.run] at hq
    | cons x xs =>
      simp only [Regex.run] at hq
      split at hq
      · simp at hq; subst hq; exact List.suffix_cons _ _
      · simp at hq
  | anyNotNL =>
    intro p q hq
    obtain ⟨b, s⟩ := p
    cases s with
    | nil => simp [Regex.run] at hq
    | cons x xs =>
      simp only [Regex.run] at hq
      split at hq
      · simp at hq
      · simp at hq; subst hq; exact List.suffix_cons _ _
  | cls neg rs =>
    intro p q hq
    obtain ⟨b, s⟩ := p
    cases s with
    | nil => simp [Regex.run] at hq
    | cons x xs =>
      simp only [Regex.run] at hq
      split at hq
      · simp at hq; subst hq; exact List.suffix_cons _ _
      · simp at hq
  | bol =>
    intro p q hq
    obtain ⟨b, s⟩ := p
    simp only [Regex.run] at hq
    split at hq
    · simp at hq; subst hq; exact List.suffix_refl _
    · simp at hq
  | eol =>
    intro p q hq
    obtain ⟨b, s⟩ := p
    simp only [Regex.run] at hq
    split at hq
    · simp at hq; subst hq; exact List.suffix_refl _
    · simp at hq
  | cat a b iha ihb =>
    intro p q hq
    simp only [Regex.run, List.mem_flatMap] at hq
    obtain ⟨m, hm, hqm⟩ := hq
    exact (ihb m q hqm).trans (iha p m hm)
  | alt a b iha ihb =>
    intro p q hq
    simp only [Regex.run, List.mem_append] at hq
    rcases hq with h | h
    · exact iha p q h
    · exact ihb p q h
  | star a iha =>
    intro p q hq
    simp only [Regex.run] at hq
    exact starRun_suffix _ iha _ p q hq
  | plus a iha =>
    intro p q hq
    simp only [Regex.run, List.mem_flatMap] at hq
    obtain ⟨m, hm, hqm⟩ := hq
    exact (starRun_suffix _ iha _ m q hqm).trans (iha p m hm)
  | quest a iha =>
    intro p q hq
    simp only [Regex.run, List.mem_append, List.mem_singleton] at hq
    rcases hq with h | h
    · exact iha p q h
    · subst h; exact List.suffix_refl _
  | cap a iha =>
    intro p q hq
    simp only [Regex.run] at hq
    exact iha p q hq

theorem run_catAll_cons (a : Regex) (rs : List Regex) (p : Pos) :
    (catAll (a :: rs)).run p = (a.run p).flatMap fun q => (catAll rs).run q := by
  cases rs with
  | nil => simp [catAll, Regex.run]
  | cons b rs => simp [catAll, Regex.run]

theorem mem_run_catAll_cons {a : Regex} {rs : List Regex} {p q : Pos} :
    q ∈ (catAll (a :: rs)).run p ↔ ∃ m, m ∈ a.run p ∧ q ∈ (catAll rs).run m := by
  rw [run_catAll_cons, List.mem_flatMap]

theorem mem_run_catAll_append {as bs : List Regex} {p q : Pos} :
    q ∈ (catAll (as ++ bs)).run p ↔ ∃ m, m ∈ (catAll as).run p ∧ q ∈ (catAll bs).run m := by
  induction as generalizing p with
  | nil => simp [catAll, Regex.run]
  | cons a as ih =>
    rw [List.cons_append, mem_run_catAll_cons]
    constructor
    · rintro ⟨m, hm, hq⟩
      obtain ⟨m', hm', hq'⟩ := ih.mp hq
      exact ⟨m', mem_run_catAll_cons.mpr ⟨m, hm, hm'⟩, hq'⟩
    · rintro ⟨m', hm', hq'⟩
      obtain ⟨m, hm, hmm⟩ := mem_run_catAll_cons.mp hm'
      exact ⟨m, hm, ih.mpr ⟨m', hmm, hq'⟩⟩

/-- A sequence of literals matches exactly that text. -/
theorem mem_run_lits {x : List Char} {p q : Pos} :
    q ∈ (catAll (x.map Regex.lit)).run p ↔
      p.2 = x ++ q.2 ∧ q.1 = (p.1 && x.isEmpty) := by
  induction x generalizing p with
  | nil =>
    obtain ⟨b, s⟩ := p
    obtain ⟨b', s'⟩ := q
    simp [catAll, Regex.run]
    constructor
    · rintro ⟨rfl, rfl⟩; exact ⟨rfl, rfl⟩
    · rintro ⟨rfl, rfl⟩; exact ⟨rfl, rfl⟩
  | cons c x ih =>
    rw [List.map_cons, mem_run_catAll_cons]
    obtain ⟨b, s⟩ := p
    cases s with
    | nil => simp [Regex.run]
    | cons y ys =>
      by_cases hy : y = c
      · subst hy
        simp [Regex.run, ih]
      · have hy' : ¬ c = y := fun h => hy h.symm
        simp [Regex.run, hy, hy']

theorem mem_run_star_any (b : Bool) (u t : List Char) (hu : '\n' ∉ u) :
    (b && u.isEmpty, t) ∈ (Regex.star Regex.anyNotNL).run (b, u ++ t) := by
  induction u generalizing b with
  | nil => simpa using mem_run_star_self _ (b, t)
  | cons c u ih =>
    have hc : c ≠ '\n' := fun h => hu (h ▸ List.mem_cons_self _ _)
    have hu' : '\n' ∉ u := fun h => hu (List.mem_cons_of_mem _ h)
    have h1 : ((false, u ++ t) : Pos) ∈ Regex.anyNotNL.run (b, c :: u ++ t) := by
      simp [Regex.run, hc]
    have h2 := ih false hu'
    have h3 := mem_run_star_step Regex.anyNotNL h1 (by simp) h2
    simpa using h3

/-! ## Lemmas: the parser -/

theorem parseClassChar_length {t t' : List Char} {c : Char}
    (h : parseClassChar t = some (c, t')) : t'.length < t.length := by
  cases t with
  | nil => simp [parseClassChar] at h
  | cons x xs =>
    simp only [parseClassChar] at h
    split at h
    · cases xs with
      | nil => simp at h
      | cons d ds =>
        simp only at h
        split at h
        · simp at h; obtain ⟨_, rfl⟩ := h; simp; omega
        · simp at h
    · simp at h; obtain ⟨_, rfl⟩ := h; simp

theorem parseClassItems_length :
    ∀ (n : Nat) (first : Bool) (acc : List (Char × Char)) (t : List Char)
      (rs : List (Char × Char)) (t' : List Char),
      parseClassItems n first acc t = some (rs, t') → t'.length ≤ t.length := by
  intro n
  induction n with
  | zero => intro first acc t rs t' h; simp [parseClassItems] at h
  | succ n ih =>
    intro first acc t rs t' h
    simp only [parseClassItems] at h
    split at h
    · simp at h; obtain ⟨_, rfl⟩ := h; simp
    · split at h
      · simp at h
      · split at h
        · simp at h
        · rename_i lo t1 hlo
          have h1 := parseClassChar_length hlo
          split at h
          · rename_i c t2
            split at h
            · have := ih _ _ _ _ _ h; omega
            · split at h
              · simp at h
              · rename_i hi t3 hhi
                have h2 := parseClassChar_length hhi
                split at h
                · simp at h
                · have := ih _ _ _ _ _ h
                  simp at h1 h2 ⊢; omega
          · have := ih _ _ _ _ _ h; omega

theorem parseClass_length {t t' : List Char} {r : Regex}
    (h : parseClass t = some (r, t')) : t'.length ≤ t.length := by
  simp only [parseClass] at h
  split at h
  · simp at h
  · rename_i rs t'' hrs
    simp at h
    obtain ⟨_, rfl⟩ := h
    have := parseClassItems_length _ _ _ _ _ _ hrs
    split at this
    · have h2 : (t.tail).length ≤ t.length := by simp
      omega
    · exact this

theorem dropLazy_length (t : List Char) : (dropLazy t).length ≤ t.length := by
  unfold dropLazy
  split <;> simp

theorem parseStep_length {st st' : PState} {t t' : List Char}
    (h : parseStep st t = some (st', t')) : t'.length < t.length := by
  cases t with
  | nil => simp [parseStep] at h
  | cons c t =>
    have hd := dropLazy_length t
    simp only [parseStep] at h
    by_cases h1 : c = '('
    · rw [if_pos h1] at h
      by_cases h2 : t.head? = some '?'
      · rw [if_pos h2] at h; simp at h
      · rw [if_neg h2] at h; simp at h; obtain ⟨_, rfl⟩ := h; simp
    rw [if_neg h1] at h
    by_cases h2 : c = '|'
    · rw [if_pos h2] at h; simp at h; obtain ⟨_, rfl⟩ := h; simp
    rw [if_neg h2] at h
    by_cases h3 : c = ')'
    · rw [if_pos h3] at h
      cases ho : st.outer with
      | nil => rw [ho] at h; simp at h
      | cons f fs => rw [ho] at h; simp at h; obtain ⟨_, rfl⟩ := h; simp
    rw [if_neg h3] at h
    by_cases h4 : c = '^'
    · rw [if_pos h4] at h; simp at h; obtain ⟨_, rfl⟩ := h; simp
    rw [if_neg h4] at h
    by_cases h5 : c = '$'
    · rw [if_pos h5] at h; simp at h; obtain ⟨_, rfl⟩ := h; simp
    rw [if_neg h5] at h
    by_cases h6 : c = '.'
    · rw [if_pos h6] at h; simp at h; obtain ⟨_, rfl⟩ := h; simp
    rw [if_neg h6] at h
    by_cases h7 : c = '['
    · rw [if_pos h7] at h
      cases hc : parseClass t with
      | none => rw [hc] at h; simp at h
      | some rt =>
        obtain ⟨r, t''⟩ := rt
        have := parseClass_length hc
        rw [hc] at h; simp at h; obtain ⟨_, rfl⟩ := h; simp; omega
    rw [if_neg h7] at h
    by_cases h8 : c = '*'
    · rw [if_pos h8] at h; simp at h; obtain ⟨_, _, _, rfl⟩ := h; simp; omega
    rw [if_neg h8] at h
    by_cases h9 : c = '+'
    · rw [if_pos h9] at h; simp at h; obtain ⟨_, _, _, rfl⟩ := h; simp; omega
    rw [if_neg h9] at h
    by_cases h10 : c = '?'
    · rw [if_pos h10] at h; simp at h; obtain ⟨_, _, _, rfl⟩ := h; simp; omega
    rw [if_neg h10] at h
    by_cases h11 : c = '{'
    · rw [if_pos h11] at h; simp at h
    rw [if_neg h11] at h
    by_cases h12 : c = '\\'
    · rw [if_pos h12] at h
      cases t with
      | nil => simp at h
      | cons d ds =>
        simp only at h
        by_cases hp : isPunct d = true
        · rw [if_pos hp] at h; simp at h; obtain ⟨_, rfl⟩ := h; simp; omega
        · rw [if_neg hp] at h; simp at h
    rw [if_neg h12] at h
    simp at h; obtain ⟨_, rfl⟩ := h; simp

theorem parseLoop_fuel :
    ∀ (n m : Nat) (st : PState) (t : List Char), t.length ≤ n → t.length ≤ m →
      parseLoop n st t = parseLoop m st t := by
  intro n
  induction n with
  | zero =>
    intro m st t hn _
    have ht : t = [] := List.length_eq_zero.mp (Nat.le_zero.mp hn)
    subst ht
    cases m <;> rfl
  | succ n ih =>
    intro m st t hn hm
    cases t with
    | nil => cases m <;> rfl
    | cons c t =>
      cases m with
      | zero => simp at hm
      | succ m =>
        simp only [parseLoop]
        cases hs : parseStep st (c :: t) with
        | none => rfl
        | some r =>
          obtain ⟨st', t'⟩ := r
          have := parseStep_length hs
          simp at this hn hm
          exact ih m st' t' (by omega) (by omega)

theorem compile_eq (e : List Char) : compile e = parseAll PState.init e := rfl

theorem parseAll_nil (st : PState) :
    parseAll st [] = if st.outer.isEmpty then some (closeFrame st.cur) else none := rfl

theorem parseAll_step {st st' : PState} {t t' : List Char}
    (h : parseStep st t = some (st', t')) : parseAll st t = parseAll st' t' := by
  cases t with
  | nil => simp [parseStep] at h
  | cons c t =>
    have hl := parseStep_length h
    simp only [parseAll, List.length_cons, parseLoop, h]
    simp at hl
    exact parseLoop_fuel _ _ _ _ (by omega) (le_refl _)

theorem parseAll_cons (st : PState) (c : Char) (t : List Char) :
    parseAll st (c :: t) =
      match parseStep st (c :: t) with
      | none => none
      | some (st', t') => parseAll st' t' := by
  cases h : parseStep st (c :: t) with
  | none => simp [parseAll, parseLoop, h]
  | some r => obtain ⟨st', t'⟩ := r; exact parseAll_step h

theorem parseStep_lit (st : PState) (c : Char) (t : List Char)
    (hc : isSyntaxChar c = false) (hd : c ≠ '.') :
    parseStep st (c :: t) = some (st.push (.lit c), t) := by
  simp [isSyntaxChar] at hc
  simp [parseStep, hc, hd]

theorem parseStep_escDot (st : PState) (t : List Char) :
    parseStep st ('\\' :: '.' :: t) = some (st.push (.lit '.'), t) := by
  simp [parseStep, isPunct]

theorem parseAll_lits (x : List Char) (hx : ∀ c ∈ x, isSyntaxChar c = false) :
    ∀ (st : PState) (rest : List Char),
      parseAll st (escDots x ++ rest) = parseAll (pushLits st x) rest := by
  induction x with
  | nil => intro st rest; rfl
  | cons c x ih =>
    intro st rest
    have hc := hx c (List.mem_cons_self _ _)
    have hx' : ∀ d ∈ x, isSyntaxChar d = false := fun d hd => hx d (List.mem_cons_of_mem _ hd)
    rw [escDots_cons]
    by_cases hdot : c = '.'
    · subst hdot
      simp only [if_true, List.cons_append, List.nil_append, List.append_assoc]
      rw [parseAll_step (parseStep_escDot st _), ih hx']
      rfl
    · simp only [if_neg hdot, List.cons_append, List.nil_append, List.append_assoc]
      rw [parseAll_step (parseStep_lit st c _ hc hdot), ih hx']
      rfl

theorem pushLits_cur (st : PState) (x : List Char) :
    (pushLits st x).cur = ⟨st.cur.alts, (x.map Regex.lit).reverse ++ st.cur.items⟩ ∧
      (pushLits st x).outer = st.outer := by
  induction x generalizing st with
  | nil => exact ⟨rfl, rfl⟩
  | cons c x ih =>
    obtain ⟨h1, h2⟩ := ih (st.push (.lit c))
    constructor
    · show (pushLits (st.push (.lit c)) x).cur = _
      rw [h1]; simp [PState.push]
    · show (pushLits (st.push (.lit c)) x).outer = _
      rw [h2]; rfl

theorem parse_pre_anyDir (z : List Char) :
    parseAll PState.init ("^(|.*/)".toList ++ z) =
      parseAll ⟨⟨[], [gAnyDir, .bol]⟩, [], false⟩ z := by
  show parseAll PState.init ('^' :: '(' :: '|' :: '.' :: '*' :: '/' :: ')' :: z) = _
  simp [parseAll_cons, parseStep, PState.push, PState.rep, PState.init, dropLazy, closeFrame,
    catAll, altAll, gAnyDir]

theorem parse_pre_root (z : List Char) :
    parseAll PState.init ("^(|/)".toList ++ z) =
      parseAll ⟨⟨[], [gRoot, .bol]⟩, [], false⟩ z := by
  show parseAll PState.init ('^' :: '(' :: '|' :: '/' :: ')' :: z) = _
  simp [parseAll_cons, parseStep, PState.push, PState.rep, PState.init, dropLazy, closeFrame,
    catAll, altAll, gRoot]

theorem parse_suf_below (st : PState) (ho : st.outer = []) (ha : st.cur.alts = []) :
    parseAll st "(|/.*)$".toList = some (catAll (st.cur.items.reverse ++ [gBelow, .eol])) := by
  show parseAll st ['(', '|', '/', '.', '*', ')', '$'] = _
  simp [parseAll_cons, parseAll_nil, parseStep, PState.push, PState.rep, dropLazy, closeFrame,
    catAll, altAll, gBelow, ho, ha]

theorem parse_suf_rest (st : PState) (ho : st.outer = []) (ha : st.cur.alts = []) :
    parseAll st "(|.*)$".toList = some (catAll (st.cur.items.reverse ++ [gRest, .eol])) := by
  show parseAll st ['(', '|', '.', '*', ')', '$'] = _
  simp [parseAll_cons, parseAll_nil, parseStep, PState.push, PState.rep, dropLazy, closeFrame,
    catAll, altAll, gRest, ho, ha]

/-! ## Lemmas: searching -/

theorem searchFrom_bol_false (r : Regex) (s : List Char) :
    (Regex.cat .bol r).searchFrom false s = false := by
  induction s with
  | nil => simp [Regex.searchFrom, Regex.run]
  | cons c cs ih => simp [Regex.searchFrom, Regex.run, ih]

theorem matchString_bol (r : Regex) (s : List Char) :
    (Regex.cat .bol r).matchString s = !(r.run (true, s)).isEmpty := by
  cases s with
  | nil => simp [Regex.matchString, Regex.searchFrom, Regex.run]
  | cons c cs =>
    simp [Regex.matchString, Regex.searchFrom, Regex.run, searchFrom_bol_false]

theorem matchString_bol_of_mem {r : Regex} {s : List Char} (q : Pos)
    (h : q ∈ r.run (true, s)) : (Regex.cat .bol r).matchString s = true := by
  rw [matchString_bol]
  cases hr : r.run (true, s) with
  | nil => rw [hr] at h; simp at h
  | cons a as => rfl

theorem matchString_bol_false {r : Regex} {s : List Char}
    (h : ∀ q, q ∉ r.run (true, s)) : (Regex.cat .bol r).matchString s = false := by
  rw [matchString_bol]
  cases hr : r.run (true, s) with
  | nil => rfl
  | cons a as => exact absurd (hr ▸ List.mem_cons_self a as) (h a)

theorem searchFrom_exists (r : Regex) :
    ∀ (b : Bool) (s : List Char), r.searchFrom b s = true →
      ∃ (b' : Bool) (s' : List Char) (q : Pos), s' <:+ s ∧ q ∈ r.run (b', s') := by
  intro b s
  induction s generalizing b with
  | nil =>
    intro h
    simp only [Regex.searchFrom] at h
    cases hr : r.run (b, []) with
    | nil => simp [hr] at h
    | cons a as => exact ⟨b, [], a, List.suffix_refl _, hr ▸ List.mem_cons_self a as⟩
  | cons c cs ih =>
    intro h
    simp only [Regex.searchFrom, Bool.or_eq_true] at h
    rcases h with h | h
    · cases hr : r.run (b, c :: cs) with
      | nil => simp [hr] at h
      | cons a as => exact ⟨b, c :: cs, a, List.suffix_refl _, hr ▸ List.mem_cons_self a as⟩
    · obtain ⟨b', s', q, hs, hq⟩ := ih false h
      exact ⟨b', s', q, hs.trans (List.suffix_cons _ _), hq⟩

/-! ## Lemmas: the rewriting of a literal rule -/

theorem compile_hashBang :
    compile "^(\\#|\\!)".toList = some (.cat .bol (.cap (.alt (.lit '#') (.lit '!')))) := by
  decide

theorem compile_slashStarDot :
    compile "([^\\/+])/.*\\*\\.".toList =
      some (.cat (.cap (.cls true [('/', '/'), ('+', '+')]))
        (.cat (.lit '/') (.cat (.star .anyNotNL) (.cat (.lit '*') (.lit '.'))))) := by
  decide

theorem mustMatch_hashBang (x : List Char) (h1 : x.head? ≠ some '!') (h2 : x.head? ≠ some '#') :
    mustMatch "^(\\#|\\!)".toList x = false := by
  simp only [mustMatch, compile_hashBang]
  apply matchString_bol_false
  intro q hq
  cases x with
  | nil => simp [Regex.run] at hq
  | cons c cs =>
    simp at h1 h2
    simp [Regex.run, h1, h2] at hq

theorem mustMatch_slashStarDot (x : List Char) (h : '*' ∉ x) :
    mustMatch "([^\\/+])/.*\\*\\.".toList x = false := by
  simp only [mustMatch, compile_slashStarDot]
  rw [Bool.eq_false_iff]
  intro hm
  obtain ⟨b', s', q, hs, hq⟩ := searchFrom_exists _ _ _ hm
  simp only [Regex.run, List.mem_flatMap] at hq
  obtain ⟨m1, hm1, m2, hm2, m3, hm3, m4, hm4, _⟩ := hq
  have s1 := run_suffix _ _ _ hm1
  have s2 := run_suffix (.lit '/') _ _ hm2
  have s3 : m3.2 <:+ m2.2 := run_suffix (.star .anyNotNL) _ _ (by simpa [Regex.run] using hm3)
  obtain ⟨b3, t3⟩ := m3
  cases t3 with
  | nil => simp [Regex.run] at hm4
  | cons y ys =>
    by_cases hy : y = '*'
    · subst hy
      have hsub : ('*' :: ys) <:+ x := ((s3.trans s2).trans s1).trans hs
      exact h (hsub.subset (List.mem_cons_self _ _))
    · simp [Regex.run, hy] at hm4

/-- A rule without syntax characters and without a leading `!` or `#` is only
changed by the escaping of its dots. -/
theorem rewritePattern_literal (x : List Char) (hx : ∀ c ∈ x, isSyntaxChar c = false)
    (h1 : x.head? ≠ some '!') (h2 : x.head? ≠ some '#') :
    rewritePattern x = escDots x := by
  have hstar : '*' ∉ x := fun h => by simpa [isSyntaxChar] using hx _ h
  have hq : '?' ∉ x := fun h => by simpa [isSyntaxChar] using hx _ h
  have hd : '$' ∉ x := fun h => by simpa [isSyntaxChar] using hx _ h
  have estar : '*' ∉ escDots x := fun h => by
    rcases mem_escDots h with h | h
    · exact hstar h
    · exact absurd h (by decide)
  have eq : '?' ∉ escDots x := fun h => by
    rcases mem_escDots h with h | h
    · exact hq h
    · exact absurd h (by decide)
  have ed : '$' ∉ escDots x := fun h => by
    rcases mem_escDots h with h | h
    · exact hd h
    · exact absurd h (by decide)
  have hpre : startsWith (escDots x) "/**/".toList = false := by
    rw [Bool.eq_false_iff]
    intro hp
    have hp' : "/**/".toList <+: escDots x := List.isPrefixOf_iff_prefix.mp hp
    exact estar (hp'.subset (by decide))
  unfold rewritePattern
  simp only [mustMatch_hashBang x h1 h2, mustMatch_slashStarDot x hstar, Bool.false_and,
    Bool.false_eq_true, if_false]
  have e0 : replaceAll x ".".toList "\\.".toList = escDots x := replaceAll_dot x
  rw [e0]
  simp only [hpre, Bool.false_eq_true, if_false]
  rw [replaceAll_no_occurrence _ "/**/".toList _ '*' (by decide) estar,
    replaceAll_no_occurrence _ "**/".toList _ '*' (by decide) estar,
    replaceAll_no_occurrence _ "/**".toList _ '*' (by decide) estar,
    replaceAll_no_occurrence _ "\\*".toList _ '*' (by decide) estar,
    replaceAll_no_occurrence _ "*".toList _ '*' (by decide) estar,
    replaceAll_no_occurrence _ "?".toList _ '?' (by decide) eq,
    replaceAll_no_occurrence _ magicStar _ '$' (by decide) ed]

theorem endsWith_escDots (x : List Char) :
    endsWith (escDots x) "/".toList = decide (x.getLast? = some '/') := by
  show ['/'].isSuffixOf (escDots x) = _
  rcases List.eq_nil_or_concat x with rfl | ⟨x', c, rfl⟩
  · rfl
  · rw [List.concat_eq_append, escDots_append]
    by_cases hc : c = '.'
    · subst hc
      simp [escDots, List.isSuffixOf, List.isPrefixOf]
    · simp [escDots, hc, List.isSuffixOf, List.isPrefixOf]
      by_cases h : c = '/'
      · simp [h]
      · have : ¬ '/' = c := fun e => h e.symm
        simp [h, this]

theorem parse_body (x : List Char) (hx : ∀ c ∈ x, isSyntaxChar c = false) (g : Regex) :
    parseAll ⟨⟨[], [g, .bol]⟩, [], false⟩ (escDots x ++ "(|/.*)$".toList) =
        some (catAll (Regex.bol :: g :: x.map Regex.lit ++ [gBelow, .eol])) ∧
      parseAll ⟨⟨[], [g, .bol]⟩, [], false⟩ (escDots x ++ "(|.*)$".toList) =
        some (catAll (Regex.bol :: g :: x.map Regex.lit ++ [gRest, .eol])) := by
  obtain ⟨h1, h2⟩ := pushLits_cur ⟨⟨[], [g, .bol]⟩, [], false⟩ x
  constructor
  · rw [parseAll_lits x hx, parse_suf_below _ h2 (by rw [h1]), h1]
    simp
  · rw [parseAll_lits x hx, parse_suf_rest _ h2 (by rw [h1]), h1]
    simp

theorem compile_buildExpr_literal (x : List Char) (hx : ∀ c ∈ x, isSyntaxChar c = false) :
    compile (buildExpr (escDots x)) = some (litRegex x) := by
  unfold buildExpr litRegex
  simp only [endsWith_escDots]
  cases x with
  | nil =>
    simp only [escDots, List.flatMap_nil, List.nil_append]
    decide
  | cons c x' =>
    have hx' : ∀ d ∈ x', isSyntaxChar d = false := fun d hd => hx d (List.mem_cons_of_mem _ hd)
    by_cases hc : c = '/'
    · subst hc
      have hp : ∀ s : List Char,
          startsWith (escDots ('/' :: x') ++ s) "/".toList = true := by
        intro s; simp [startsWith, escDots, List.isPrefixOf]
      have ht : ∀ s : List Char,
          (escDots ('/' :: x') ++ s).tail = escDots x' ++ s := by
        intro s; simp [escDots]
      by_cases hl : ('/' :: x').getLast? = some '/'
      · simp only [hl, decide_True, if_true, hp, ht, List.head?_cons, List.tail_cons]
        rw [compile_eq, parse_pre_root]
        exact (parse_body x' hx' gRoot).2
      · simp only [hl, decide_False, Bool.false_eq_true, if_false, hp, if_true, ht,
          List.head?_cons, List.tail_cons]
        rw [compile_eq, parse_pre_root]
        exact (parse_body x' hx' gRoot).1
    · have hp : ∀ s : List Char,
          startsWith (escDots (c :: x') ++ s) "/".toList = false := by
        intro s
        by_cases hdot : c = '.'
        · subst hdot; simp [startsWith, escDots, List.isPrefixOf]
        · have : ('/' == c) = false := by simp; exact fun h => hc h.symm
          simp [startsWith, escDots, List.isPrefixOf, hdot, this]
      have hh : ¬ (c :: x').head? = some '/' := by simp [hc]
      by_cases hl : (c :: x').getLast? = some '/'
      · simp only [hl, decide_True, if_true, hp, Bool.false_eq_true, if_false, hh]
        rw [compile_eq, parse_pre_anyDir]
        exact (parse_body (c :: x') hx gAnyDir).2
      · simp only [hl, decide_False, Bool.false_eq_true, if_false, hp, hh]
        rw [compile_eq, parse_pre_anyDir]
        exact (parse_body (c :: x') hx gAnyDir).1

/-- What `isIgnoreReload` computes for a literal rule. -/
theorem isIgnoreReload_literal (x path : List Char) (hne : x ≠ [])
    (hx : ∀ c ∈ x, isSyntaxChar c = false)
    (h1 : x.head? ≠ some '!') (h2 : x.head? ≠ some '#') :
    isIgnoreReload x path = (litRegex x).matchString path := by
  have hb : (x.head? == some '!') = false := by
    cases x with
    | nil => rfl
    | cons c cs => simpa using h1
  have he : x.isEmpty = false := by cases x with
    | nil => exact absurd rfl hne
    | cons c cs => rfl
  unfold isIgnoreReload
  rw [he, if_neg Bool.false_ne_true]
  dsimp only
  rw [hb, if_neg Bool.false_ne_true]
  rw [rewritePattern_literal x hx h1 h2, compile_buildExpr_literal x hx]
  show (if ((litRegex x).matchString path && !false) = true then true else false) = _
  cases (litRegex x).matchString path <;> rfl

/-! ## Lemmas: matching the expression of a literal rule -/

theorem dirPart_append_lastSegment (p : List Char) : dirPart p ++ lastSegment p = p := by
  unfold dirPart lastSegment
  rw [← List.reverse_append, List.takeWhile_append_dropWhile, List.reverse_reverse]

theorem dirPart_shape (p : List Char) : dirPart p = [] ∨ (dirPart p).getLast? = some '/' := by
  unfold dirPart
  generalize p.reverse = r
  induction r with
  | nil => left; rfl
  | cons c r ih =>
    by_cases hc : c = '/'
    · right; subst hc; simp [List.dropWhile]
    · have : (c != '/') = true := by simpa using hc
      simp only [List.dropWhile, this]
      exact ih

theorem lastSegment_no_slash (p : List Char) : '/' ∉ lastSegment p := by
  unfold lastSegment
  intro h
  rw [List.mem_reverse] at h
  have := List.mem_takeWhile_imp h
  simp at this

theorem run_gAnyDir (d t : List Char) (hd : d = [] ∨ d.getLast? = some '/')
    (hn : '\n' ∉ d) : ∃ b, ((b, t) : Pos) ∈ gAnyDir.run (true, d ++ t) := by
  rcases hd with rfl | hd
  · exact ⟨true, by simp [gAnyDir, Regex.run]⟩
  · rcases List.eq_nil_or_concat d with rfl | ⟨u, c, rfl⟩
    · simp at hd
    · rw [List.concat_eq_append] at hd hn ⊢
      simp at hd
      subst hd
      have hu : '\n' ∉ u := fun h => hn (List.mem_append_left _ h)
      have h1 := mem_run_star_any true u ('/' :: t) hu
      refine ⟨false, ?_⟩
      simp only [gAnyDir, Regex.run, List.mem_append, List.mem_flatMap]
      right
      refine ⟨(true && u.isEmpty, '/' :: t), ?_, ?_⟩
      · simpa [Regex.run] using h1
      · simp [Regex.run]

theorem run_tail (g : Regex) (hg : g = gBelow ∨ g = gRest) (b : Bool) :
    ∃ b', ((b', []) : Pos) ∈ (catAll [g, Regex.eol]).run (b, []) := by
  refine ⟨b, ?_⟩
  rcases hg with rfl | rfl
  · simp [catAll, gBelow, Regex.run]
  · simp [catAll, gRest, Regex.run, starRun]

theorem run_tail_rest (b : Bool) (t : List Char) (ht : '\n' ∉ t) :
    ∃ b', ((b', []) : Pos) ∈ (catAll [gRest, Regex.eol]).run (b, t) := by
  have h1 := mem_run_star_any b t [] ht
  refine ⟨b && t.isEmpty, ?_⟩
  simp only [catAll, gRest, Regex.run, List.mem_append, List.mem_flatMap]
  refine ⟨(b && t.isEmpty, []), Or.inr ?_, by simp⟩
  simpa [Regex.run] using h1

/-- An unrooted literal rule matches a path that ends with the rule and has
nothing or whole directories (without newline) before it. -/
theorem litRegex_matches (x d : List Char) (hh : x.head? ≠ some '/')
    (hd : d = [] ∨ d.getLast? = some '/') (hn : '\n' ∉ d) :
    (litRegex x).matchString (d ++ x) = true := by
  obtain ⟨b1, h1⟩ := run_gAnyDir d x hd hn
  have h2 : ((b1 && x.isEmpty, []) : Pos) ∈ (catAll (x.map Regex.lit)).run (b1, x) :=
    mem_run_lits.mpr ⟨by simp, rfl⟩
  obtain ⟨b3, h3⟩ := run_tail (if x.getLast? = some '/' then gRest else gBelow)
    (by split <;> simp) (b1 && x.isEmpty)
  have hall : ((b3, []) : Pos) ∈
      (catAll (gAnyDir :: x.map Regex.lit ++
        [if x.getLast? = some '/' then gRest else gBelow, Regex.eol])).run (true, d ++ x) := by
    rw [List.cons_append, mem_run_catAll_cons]
    exact ⟨_, h1, mem_run_catAll_append.mpr ⟨_, h2, h3⟩⟩
  have hr : litRegex x = Regex.cat .bol (catAll (gAnyDir :: x.map Regex.lit ++
        [if x.getLast? = some '/' then gRest else gBelow, Regex.eol])) := by
    simp [litRegex, hh, catAll]
  rw [hr]
  exact matchString_bol_of_mem _ hall

/-- A path matched by an unrooted literal rule contains the rule. -/
theorem litRegex_match_inv (x path : List Char) (hh : x.head? ≠ some '/')
    (h : (litRegex x).matchString path = true) : ∃ pre t, path = pre ++ (x ++ t) := by
  have hr : litRegex x = Regex.cat .bol (catAll (gAnyDir :: x.map Regex.lit ++
        [if x.getLast? = some '/' then gRest else gBelow, Regex.eol])) := by
    simp [litRegex, hh, catAll]
  rw [hr, matchString_bol] at h
  cases hrun : (catAll (gAnyDir :: x.map Regex.lit ++
        [if x.getLast? = some '/' then gRest else gBelow, Regex.eol])).run (true, path) with
  | nil => rw [hrun] at h; exact absurd h (by decide)
  | cons q qs =>
    have hq : q ∈ (catAll (gAnyDir :: x.map Regex.lit ++
        [if x.getLast? = some '/' then gRest else gBelow, Regex.eol])).run (true, path) := by
      rw [hrun]; exact List.mem_cons_self _ _
    rw [List.cons_append, mem_run_catAll_cons] at hq
    obtain ⟨m1, hm1, hq⟩ := hq
    obtain ⟨m2, hm2, _⟩ := mem_run_catAll_append.mp hq
    obtain ⟨pre, hpre⟩ := run_suffix _ _ _ hm1
    have := (mem_run_lits.mp hm2).1
    exact ⟨pre, m2.2, by rw [← this]; exact hpre.symm⟩

theorem isPlainName_facts {s : List Char} (h : isPlainName s = true) :
    s ≠ [] ∧ (∀ c ∈ s, isSyntaxChar c = false) ∧ '/' ∉ s ∧
      s.head? ≠ some '/' ∧ s.head? ≠ some '!' ∧ s.head? ≠ some '#' := by
  cases s with
  | nil => simp [isPlainName] at h
  | cons a as =>
    simp only [isPlainName, List.isEmpty_cons, Bool.not_false, Bool.true_and, Bool.and_eq_true,
      List.all_eq_true, bne_iff_ne, ne_eq, Bool.not_eq_true', List.head?_cons] at h
    obtain ⟨⟨hall, h1⟩, h2⟩ := h
    have hs : '/' ∉ a :: as := fun hm => (hall _ hm).1 rfl
    refine ⟨by simp, fun c hc => (hall c hc).2, hs, ?_, h1, h2⟩
    intro he
    simp at he
    exact hs (he ▸ List.mem_cons_self _ _)

theorem isLiteralName_facts {s : List Char} (h : isLiteralName s = true) :
    s ≠ [] ∧ (∀ c ∈ s, isSyntaxChar c = false) ∧ s.head? ≠ some '/' := by
  cases s with
  | nil => simp [isLiteralName] at h
  | cons a as =>
    simp only [isLiteralName, List.isEmpty_cons, Bool.not_false, Bool.true_and,
      List.all_eq_true, Bool.and_eq_true, bne_iff_ne, ne_eq, Bool.not_eq_true'] at h
    refine ⟨by simp, fun c hc => (h c hc).2, ?_⟩
    intro he
    simp at he
    exact (h a (List.mem_cons_self _ _)).1 he

theorem joinSlash_facts (segs : List (List Char)) (hne : segs ≠ [])
    (hp : ∀ s ∈ segs, isLiteralName s = true) :
    joinSlash segs ≠ [] ∧ (∀ c ∈ joinSlash segs, isSyntaxChar c = false) ∧
      (joinSlash segs).head? ≠ some '/' := by
  induction segs with
  | nil => exact absurd rfl hne
  | cons s rest ih =>
    obtain ⟨f1, f2, f4⟩ := isLiteralName_facts (hp s (List.mem_cons_self _ _))
    cases rest with
    | nil => exact ⟨f1, f2, f4⟩
    | cons s' rest' =>
      obtain ⟨_, g2, _⟩ := ih (by simp) (fun t ht => hp t (List.mem_cons_of_mem _ ht))
      have hj : joinSlash (s :: s' :: rest') = s ++ '/' :: joinSlash (s' :: rest') := rfl
      rw [hj]
      cases s with
      | nil => exact absurd rfl f1
      | cons a as =>
        refine ⟨by simp, ?_, by simpa using f4⟩
        intro c hc
        rcases List.mem_append.mp hc with hc | hc
        · exact f2 c hc
        · rcases List.mem_cons.mp hc with hc | hc
          · subst hc; rfl
          · exact g2 c hc

theorem firstSegment_append_slash (s w : List Char) (hs : '/' ∉ s) :
    firstSegment (s ++ '/' :: w) = s := by
  induction s with
  | nil => simp [firstSegment]
  | cons a as ih =>
    have ha : a ≠ '/' := fun h => hs (h ▸ List.mem_cons_self _ _)
    have has : '/' ∉ as := fun h => hs (List.mem_cons_of_mem _ h)
    have := ih has
    have ha' : (a != '/') = true := by simpa using ha
    simp only [firstSegment] at this ⊢
    simp [List.takeWhile, ha', this]

theorem firstSegment_append_of_mem (b t : List Char) (hb : '/' ∈ b) :
    firstSegment (b ++ t) = firstSegment b := by
  induction b with
  | nil => simp at hb
  | cons a as ih =>
    by_cases ha : a = '/'
    · subst ha; simp [firstSegment]
    · have has : '/' ∈ as := by
        rcases List.mem_cons.mp hb with h | h
        · exact absurd h.symm ha
        · exact h
      have := ih has
      simp only [firstSegment] at this ⊢
      simp [List.takeWhile, ha, this]

theorem firstSegment_append_cons_slash (b w : List Char) :
    firstSegment (b ++ '/' :: w) = firstSegment b := by
  by_cases hb : '/' ∈ b
  · exact firstSegment_append_of_mem b _ hb
  · rw [firstSegment_append_slash b w hb]
    symm
    simp only [firstSegment]
    rw [List.takeWhile_eq_self_iff]
    intro c hc
    simp
    exact fun h => hb (h ▸ hc)

theorem litRegex_root_eq (b : List Char) :
    litRegex ('/' :: b) = Regex.cat .bol (catAll (gRoot :: b.map Regex.lit ++
      [if ('/' :: b).getLast? = some '/' then gRest else gBelow, Regex.eol])) := by
  simp [litRegex, catAll]

/-- A rooted literal rule matches its own body as a path. -/
theorem litRegex_root_matches (b : List Char) :
    (litRegex ('/' :: b)).matchString b = true := by
  have h1 : ((true, b) : Pos) ∈ gRoot.run (true, b) := by simp [gRoot, Regex.run]
  have h2 : ((true && b.isEmpty, []) : Pos) ∈ (catAll (b.map Regex.lit)).run (true, b) :=
    mem_run_lits.mpr ⟨by simp, rfl⟩
  obtain ⟨b3, h3⟩ := run_tail (if ('/' :: b).getLast? = some '/' then gRest else gBelow)
    (by split <;> simp) (true && b.isEmpty)
  rw [litRegex_root_eq]
  apply matchString_bol_of_mem (b3, [])
  rw [List.cons_append, mem_run_catAll_cons]
  exact ⟨_, h1, mem_run_catAll_append.mpr ⟨_, h2, h3⟩⟩

/-- A path matched by a rooted literal rule starts with the body of the rule
(after an optional `/`), and what follows starts a new segment. -/
theorem litRegex_root_match_inv (b path : List Char) (hb : b ≠ [])
    (h : (litRegex ('/' :: b)).matchString path = true) :
    ∃ t, (path = b ++ t ∨ path = '/' :: (b ++ t)) ∧
      (t = [] ∨ t.head? = some '/' ∨ b.getLast? = some '/') := by
  rw [litRegex_root_eq, matchString_bol] at h
  cases hrun : (catAll (gRoot :: b.map Regex.lit ++
      [if ('/' :: b).getLast? = some '/' then gRest else gBelow, Regex.eol])).run (true, path) with
  | nil => rw [hrun] at h; exact absurd h (by decide)
  | cons q qs =>
    have hq : q ∈ (catAll (gRoot :: b.map Regex.lit ++
        [if ('/' :: b).getLast? = some '/' then gRest else gBelow, Regex.eol])).run
          (true, path) := by
      rw [hrun]; exact List.mem_cons_self _ _
    rw [List.cons_append, mem_run_catAll_cons] at hq
    obtain ⟨m1, hm1, hq⟩ := hq
    obtain ⟨m2, hm2, hq⟩ := mem_run_catAll_append.mp hq
    have hlit := (mem_run_lits.mp hm2).1
    have hlast : ('/' :: b).getLast? = b.getLast? := by
      cases b with
      | nil => exact absurd rfl hb
      | cons a as => simp [List.getLast?_cons_cons]
    refine ⟨m2.2, ?_, ?_⟩
    · obtain ⟨b1, s1⟩ := m1
      cases path with
      | nil =>
        simp [gRoot, Regex.run] at hm1
        left; rw [← hlit, hm1.2]
      | cons c cs =>
        by_cases hc : c = '/'
        · subst hc
          simp [gRoot, Regex.run] at hm1
          rcases hm1 with ⟨_, h⟩ | ⟨_, h⟩
          · left; rw [← hlit, h]
          · right; rw [← hlit, h]
        · simp [gRoot, Regex.run, hc] at hm1
          left; rw [← hlit, hm1.2]
    · rw [hlast] at hq
      by_cases hl : b.getLast? = some '/'
      · exact Or.inr (Or.inr hl)
      · simp only [hl, if_false] at hq
        obtain ⟨k1, k2⟩ := m2
        simp only [catAll, gBelow, Regex.run, List.mem_flatMap, List.mem_append,
          List.mem_singleton] at hq
        obtain ⟨m3, hm3, hq⟩ := hq
        rcases hm3 with hm3 | ⟨m4, hm4, _⟩
        · subst hm3
          left
          by_cases hk : k2 = []
          · exact hk
          · cases k2 with
            | nil => exact absurd rfl hk
            | cons y ys => simp [Regex.run] at hq
        · right; left
          cases k2 with
          | nil => simp [Regex.run] at hm4
          | cons y ys =>
            by_cases hy : y = '/'
            · simp [hy]
            · simp [Regex.run, hy] at hm4

/-! ## The test table of the repository -/

/-- On every row of the table of `Test_isIgnoreReload` the model of
`isIgnoreReload` gives the answer the test expects. -/
theorem asserts_hold :
    (asserts.all fun a => isIgnoreReload a.1.toList a.2.1.toList == a.2.2) = true := by
  decide

/-! ## The ignore-rule matcher: the properties of the specification -/

/-- C1 (as amended). For every non-empty rule `r` that contains no `/`, no
syntax character and does not start with `!` or `#`, and every path `p` whose
final segment is `r` and whose directory part contains no newline,
`isIgnoreReload r p` is true. -/
theorem isIgnoreReload_plain_final_segment (r p : List Char) (hr : isPlainName r = true)
    (hp : lastSegment p = r) (hn : '\n' ∉ dirPart p) : isIgnoreReload r p = true := by
  obtain ⟨f1, f2, _, f4, f5, f6⟩ := isPlainName_facts hr
  subst hp
  rw [isIgnoreReload_literal _ p f1 f2 f5 f6]
  have h := litRegex_matches (lastSegment p) (dirPart p) f4 (dirPart_shape p) hn
  rwa [dirPart_append_lastSegment] at h

/-- Witness of C1 (as amended): rule `a.txt`, path `dir1/dir2/a.txt`. -/
theorem isIgnoreReload_plain_final_segment_witness :
    isPlainName "a.txt".toList = true ∧
      lastSegment "dir1/dir2/a.txt".toList = "a.txt".toList ∧
      '\n' ∉ dirPart "dir1/dir2/a.txt".toList ∧
      isIgnoreReload "a.txt".toList "dir1/dir2/a.txt".toList = true :=
  ⟨by decide, by decide, by decide,
    isIgnoreReload_plain_final_segment _ _ (by decide) (by decide) (by decide)⟩

/-- Counterexample to C1 as stated: the rule `!b.txt` contains no `/`, and it
matches neither the path `b.txt`, whose final segment is the body of the rule,
nor the path `!b.txt`, whose final segment is the whole rule. -/
theorem isIgnoreReload_negated_rule_final_segment :
    '/' ∉ "!b.txt".toList ∧
      lastSegment "b.txt".toList = "b.txt".toList ∧
      isIgnoreReload "!b.txt".toList "b.txt".toList = false ∧
      lastSegment "!b.txt".toList = "!b.txt".toList ∧
      isIgnoreReload "!b.txt".toList "!b.txt".toList = false := by
  decide

/-- C2 (as amended). For a rooted rule `/b` with a non-empty literal body
`b`, and a non-empty segment `s` that is not the first segment of `b`,
`isIgnoreReload` accepts the path `b` and rejects the path `s/b`. -/
theorem isIgnoreReload_rooted (b s : List Char) (hb : b ≠ [])
    (hlit : ∀ c ∈ b, isSyntaxChar c = false) (hs : s ≠ []) (hs' : '/' ∉ s)
    (hne : s ≠ firstSegment b) :
    isIgnoreReload ('/' :: b) b = true ∧ isIgnoreReload ('/' :: b) (s ++ '/' :: b) = false := by
  have hx : ∀ c ∈ '/' :: b, isSyntaxChar c = false := by
    intro c hc
    rcases List.mem_cons.mp hc with h | h
    · subst h; rfl
    · exact hlit c h
  constructor
  · rw [isIgnoreReload_literal _ _ (by simp) hx (by simp) (by simp)]
    exact litRegex_root_matches b
  · rw [isIgnoreReload_literal _ _ (by simp) hx (by simp) (by simp), Bool.eq_false_iff]
    intro hm
    obtain ⟨t, hpath, htail⟩ := litRegex_root_match_inv b _ hb hm
    rcases hpath with hpath | hpath
    · have hfs : firstSegment (s ++ '/' :: b) = s := firstSegment_append_slash s b hs'
      rcases htail with ht | ht | ht
      · subst ht
        have := congrArg List.length hpath
        simp at this
        omega
      · cases t with
        | nil => simp at ht
        | cons y ys =>
          simp at ht
          subst ht
          rw [hpath, firstSegment_append_cons_slash] at hfs
          exact hne hfs.symm
      · have hmem : '/' ∈ b := List.mem_of_mem_getLast? ht
        rw [hpath, firstSegment_append_of_mem b t hmem] at hfs
        exact hne hfs.symm
    · cases s with
      | nil => exact hs rfl
      | cons a as =>
        simp at hpath
        exact hs' (hpath.1 ▸ List.mem_cons_self _ _)

/-- Witness of C2 (as amended): rule `/dir1/a.txt`, segment `dir`. -/
theorem isIgnoreReload_rooted_witness :
    isIgnoreReload "/dir1/a.txt".toList "dir1/a.txt".toList = true ∧
      isIgnoreReload "/dir1/a.txt".toList "dir/dir1/a.txt".toList = false :=
  isIgnoreReload_rooted "dir1/a.txt".toList "dir".toList (by decide) (by decide) (by decide)
    (by decide) (by decide)

/-- Counterexample to C2 as stated: with body `a` and segment `a`, the rooted
rule `/a` does match `a/a`, the path with the segment inserted before the body:
the expression ends in `(|/.*)`, so it accepts everything beneath `a`. -/
theorem isIgnoreReload_rooted_matches_beneath :
    isIgnoreReload ('/' :: "a".toList) ("a".toList ++ '/' :: "a".toList) = true := by
  decide

/-- C3. A rule that starts with `!` matches no path. -/
theorem isIgnoreReload_negated (body path : List Char) :
    isIgnoreReload ('!' :: body) path = false := by
  unfold isIgnoreReload
  rw [if_neg (by simp)]
  dsimp only
  cases compile (buildExpr (rewritePattern
    (if (('!' :: body).head? == some '!') = true then ('!' :: body).tail else '!' :: body))) with
  | none => rfl
  | some reg => simp

/-- C4 (as amended). For a directory path `d` made of one or more literal
names (not empty, without `/` and without a syntax character) joined by `/`
that does not start with `!` or `#`, the rule `d/` does not match the path `d`
and the rule `d` does. -/
theorem isIgnoreReload_dir_rule (segs : List (List Char)) (hne : segs ≠ [])
    (hp : ∀ s ∈ segs, isLiteralName s = true)
    (f4 : (joinSlash segs).head? ≠ some '!') (f5 : (joinSlash segs).head? ≠ some '#') :
    isIgnoreReload (joinSlash segs ++ ['/']) (joinSlash segs) = false ∧
      isIgnoreReload (joinSlash segs) (joinSlash segs) = true := by
  obtain ⟨f1, f2, f3⟩ := joinSlash_facts segs hne hp
  generalize joinSlash segs = d at f1 f2 f3 f4 f5
  have hx : ∀ c ∈ d ++ ['/'], isSyntaxChar c = false := by
    intro c hc
    rcases List.mem_append.mp hc with h | h
    · exact f2 c h
    · simp at h; subst h; rfl
  have hhead : ∀ c : Char, d.head? ≠ some c → (d ++ ['/']).head? ≠ some c := by
    intro c h
    cases d with
    | nil => exact absurd rfl f1
    | cons a as => simpa using h
  constructor
  · rw [isIgnoreReload_literal _ _ (by simp) hx (hhead _ f4) (hhead _ f5), Bool.eq_false_iff]
    intro hm
    obtain ⟨pre, t, h⟩ := litRegex_match_inv _ _ (hhead _ f3) hm
    have := congrArg List.length h
    simp at this
    omega
  · rw [isIgnoreReload_literal _ _ f1 f2 f4 f5]
    exact litRegex_matches d [] f3 (Or.inl rfl) (by simp)

/-- Witness of C4 (as amended): the directory path `dir1/dir2`. -/
theorem isIgnoreReload_dir_rule_witness :
    isIgnoreReload "dir1/dir2/".toList "dir1/dir2".toList = false ∧
      isIgnoreReload "dir1/dir2".toList "dir1/dir2".toList = true :=
  isIgnoreReload_dir_rule ["dir1".toList, "dir2".toList] (by decide) (by decide) (by decide)
    (by decide)

/-- Counterexample to C4 as stated: the rule `lost+found` does not match the
path `lost+found`, because the `+` reaches the expression unescaped and is read
as a repetition; and the rule `#tmp` does not match the path `#tmp`, because a
leading `#` is taken off the rule. -/
theorem isIgnoreReload_dir_rule_rejects_own_path :
    isIgnoreReload (joinSlash ["lost+found".toList]) (joinSlash ["lost+found".toList]) = false ∧
      isIgnoreReload (joinSlash ["#tmp".toList]) (joinSlash ["#tmp".toList]) = false := by
  decide

theorem compile_starTxt :
    compile (buildExpr (rewritePattern "*.txt".toList)) = some starTxtRegex := by
  decide

theorem isIgnoreReload_starTxt (p : List Char) :
    isIgnoreReload "*.txt".toList p = starTxtRegex.matchString p := by
  unfold isIgnoreReload
  rw [if_neg (by decide)]
  dsimp only
  rw [show (("*.txt".toList).head? == some '!') = false from by decide,
    if_neg Bool.false_ne_true, compile_starTxt]
  show (if (starTxtRegex.matchString p && !false) = true then true else false) = _
  cases starTxtRegex.matchString p <;> rfl

theorem mem_run_star_noSlash (b : Bool) (u t : List Char) (hu : '/' ∉ u) :
    (b && u.isEmpty, t) ∈ (Regex.star (.cls true [('/', '/')])).run (b, u ++ t) := by
  induction u generalizing b with
  | nil => simpa using mem_run_star_self _ (b, t)
  | cons c u ih =>
    have hc : c ≠ '/' := fun h => hu (h ▸ List.mem_cons_self _ _)
    have hu' : '/' ∉ u := fun h => hu (List.mem_cons_of_mem _ h)
    have hcls : inClass true [('/', '/')] c = true := by
      simp only [inClass, List.any_cons, List.any_nil, Bool.or_false]
      have : (decide ('/' ≤ c) && decide (c ≤ '/')) = false := by
        rw [Bool.eq_false_iff]
        intro h
        simp only [Bool.and_eq_true, decide_eq_true_eq] at h
        exact hc (le_antisymm h.2 h.1)
      rw [this]; rfl
    have h1 : ((false, u ++ t) : Pos) ∈ (Regex.cls true [('/', '/')]).run (b, c :: u ++ t) := by
      simp [Regex.run, hcls]
    have h2 := ih false hu'
    have h3 := mem_run_star_step _ h1 (by simp) h2
    simpa using h3

theorem lastSegment_append (q s : List Char) (hs : '/' ∉ s) :
    lastSegment (q ++ s) = lastSegment q ++ s ∧ dirPart (q ++ s) = dirPart q := by
  have hall : ∀ c ∈ s.reverse, (c != '/') = true := by
    intro c hc
    rw [List.mem_reverse] at hc
    simp
    exact fun h => hs (h ▸ hc)
  constructor
  · unfold lastSegment
    rw [List.reverse_append, List.takeWhile_append_of_pos hall, List.reverse_append,
      List.reverse_reverse]
  · unfold dirPart
    rw [List.reverse_append, List.dropWhile_append_of_pos hall]

/-- C5 (as amended). The rule `*.txt` matches every path that ends in
`.txt` and has no newline in its directory part. -/
theorem isIgnoreReload_starTxt_matches (p : List Char)
    (h : endsWith p ".txt".toList = true) (hn : '\n' ∉ dirPart p) :
    isIgnoreReload "*.txt".toList p = true := by
  obtain ⟨q, rfl⟩ : ∃ q, p = q ++ ".txt".toList := by
    obtain ⟨q, hq⟩ : ".txt".toList <:+ p := List.isSuffixOf_iff_suffix.mp h
    exact ⟨q, hq.symm⟩
  obtain ⟨_, hdir⟩ := lastSegment_append q ".txt".toList (by decide)
  rw [hdir] at hn
  rw [isIgnoreReload_starTxt]
  obtain ⟨b1, h1⟩ := run_gAnyDir (dirPart q) (lastSegment q ++ ".txt".toList)
    (dirPart_shape q) hn
  have h2 := mem_run_star_noSlash b1 (lastSegment q) ".txt".toList (lastSegment_no_slash q)
  have h3 : ((false, []) : Pos) ∈
      (catAll (".txt".toList.map Regex.lit)).run (b1 && (lastSegment q).isEmpty, ".txt".toList) :=
    mem_run_lits.mpr ⟨by simp, by simp⟩
  obtain ⟨b4, h4⟩ := run_tail gBelow (Or.inl rfl) false
  have hp : q ++ ".txt".toList = dirPart q ++ (lastSegment q ++ ".txt".toList) := by
    rw [← List.append_assoc, dirPart_append_lastSegment]
  rw [hp]
  apply matchString_bol_of_mem (b4, [])
  rw [mem_run_catAll_append]
  refine ⟨(b1 && (lastSegment q).isEmpty, ".txt".toList), ?_, mem_run_catAll_append.mpr ⟨_, h3, h4⟩⟩
  rw [mem_run_catAll_cons]
  exact ⟨_, h1, by simpa [catAll, Regex.run] using h2⟩

/-- Witness of C5 (as amended): the path `dir/b.txt`. -/
theorem isIgnoreReload_starTxt_matches_witness :
    endsWith "dir/b.txt".toList ".txt".toList = true ∧
      '\n' ∉ dirPart "dir/b.txt".toList ∧
      isIgnoreReload "*.txt".toList "dir/b.txt".toList = true :=
  ⟨by decide, by decide, isIgnoreReload_starTxt_matches _ (by decide) (by decide)⟩

/-- Counterexample to C5 as stated: the path made of a directory named by a
newline and the file `a.txt` ends in `.txt`, and the rule `*.txt` does not
match it, because the `.` of `(|.*/)` matches no newline. -/
theorem isIgnoreReload_starTxt_newline :
    endsWith "\n/a.txt".toList ".txt".toList = true ∧
      isIgnoreReload "*.txt".toList "\n/a.txt".toList = false := by
  decide

/-! ## The watch loop: debounce -/

theorem onChange_survives (rules : List (List Char)) (p : List Char) (w : Watch)
    (h : survives rules p = true) :
    onChange rules p w =
      if w.dirty then w
      else { w with dirty := true, timers := w.timers + 1, scheduled := w.scheduled + 1 } := by
  simp only [survives, Bool.and_eq_true, beq_iff_eq, bne_iff_ne, ne_eq, Bool.not_eq_true'] at h
  obtain ⟨⟨h1, h2⟩, h3⟩ := h
  have h1' : (extName p != "go".toList) = false := by simp [h1]
  have h2' : (base p == "data-swagger.go".toList) = false := by simpa using h2
  unfold onChange
  rw [h1', if_neg Bool.false_ne_true, h2', if_neg Bool.false_ne_true]
  by_cases hd : w.dirty = true
  · rw [if_pos hd, if_pos hd]
  · rw [if_neg hd, if_neg hd]
    dsimp only
    rw [h3, if_neg Bool.false_ne_true]

theorem onChange_dirty (rules : List (List Char)) (p : List Char) (w : Watch)
    (hd : w.dirty = true) : onChange rules p w = w := by
  unfold onChange
  split
  · rfl
  · split
    · rfl
    · rfl

theorem step_dirty (rules : List (List Char)) (w : Watch) (s : Step) (hd : w.dirty = true)
    (hs : s ≠ .rebuildDone) :
    (step rules w s).dirty = true ∧ (step rules w s).scheduled = w.scheduled := by
  cases s with
  | startup => simp only [step]; split <;> simp [hd]
  | initialDone => exact ⟨hd, rfl⟩
  | change p => simp only [step, onChange_dirty rules p w hd]; simp [hd]
  | timerFire => simp only [step]; split <;> simp [hd]
  | rebuildDone => exact absurd rfl hs

theorem runSteps_dirty (rules : List (List Char)) (tr : List Step) :
    ∀ w : Watch, w.dirty = true → Step.rebuildDone ∉ tr →
      (runSteps rules w tr).scheduled = w.scheduled ∧ (runSteps rules w tr).dirty = true := by
  induction tr with
  | nil => intro w hd _; exact ⟨rfl, hd⟩
  | cons s tr ih =>
    intro w hd hn
    have hs : s ≠ .rebuildDone := fun h => hn (h ▸ List.mem_cons_self _ _)
    have hn' : Step.rebuildDone ∉ tr := fun h => hn (List.mem_cons_of_mem _ h)
    obtain ⟨h1, h2⟩ := step_dirty rules w s hd hs
    obtain ⟨h3, h4⟩ := ih (step rules w s) h1 hn'
    exact ⟨by rw [← h2, ← h3]; rfl, h4⟩

/-- C6. From a state with `dirty = false`, any run of the loop that has no
completion of a rebuild in it and handles at least one change event, all of
whose change events survive the filter, schedules exactly one rebuild and
leaves `dirty` set. -/
theorem debounce_one_rebuild (rules : List (List Char)) (tr : List Step) :
    ∀ w : Watch, w.dirty = false → Step.rebuildDone ∉ tr →
      (∀ p, Step.change p ∈ tr → survives rules p = true) →
      (∃ p, Step.change p ∈ tr) →
      (runSteps rules w tr).scheduled = w.scheduled + 1 ∧
        (runSteps rules w tr).dirty = true := by
  induction tr with
  | nil => intro w _ _ _ hN; obtain ⟨p, hp⟩ := hN; simp at hp
  | cons s tr ih =>
    intro w hd hn hsv hN
    have hn' : Step.rebuildDone ∉ tr := fun h => hn (List.mem_cons_of_mem _ h)
    have hsv' : ∀ p, Step.change p ∈ tr → survives rules p = true :=
      fun p hp => hsv p (List.mem_cons_of_mem _ hp)
    have hrest : ∀ (w' : Watch), w'.dirty = false → w'.scheduled = w.scheduled →
        s ≠ Step.rebuildDone → (∀ p, s ≠ Step.change p) →
        step rules w s = w' →
        (runSteps rules w (s :: tr)).scheduled = w.scheduled + 1 ∧
          (runSteps rules w (s :: tr)).dirty = true := by
      intro w' hd' hsch _ hnc hstep
      have hN' : ∃ p, Step.change p ∈ tr := by
        obtain ⟨p, hp⟩ := hN
        rcases List.mem_cons.mp hp with h | h
        · exact absurd h.symm (hnc p)
        · exact ⟨p, h⟩
      have := ih w' hd' hn' hsv' hN'
      simp only [runSteps, List.foldl_cons, hstep] at this ⊢
      rw [← hsch]; exact this
    cases s with
    | startup =>
      refine hrest (step rules w .startup) ?_ ?_ (by simp) (by simp) rfl
      · simp only [step]; split <;> exact hd
      · simp only [step]; split <;> rfl
    | initialDone => exact hrest (step rules w .initialDone) hd rfl (by simp) (by simp) rfl
    | timerFire =>
      refine hrest (step rules w .timerFire) ?_ ?_ (by simp) (by simp) rfl
      · simp only [step]; split <;> exact hd
      · simp only [step]; split <;> rfl
    | rebuildDone => exact absurd (List.mem_cons_self _ _) hn
    | change p =>
      have hp := hsv p (List.mem_cons_self _ _)
      have hstep : step rules w (.change p) =
          { w with dirty := true, timers := w.timers + 1, scheduled := w.scheduled + 1 } := by
        simp only [step, onChange_survives rules p w hp, hd, Bool.false_eq_true, if_false]
      obtain ⟨h1, h2⟩ := runSteps_dirty rules tr (step rules w (.change p)) (by rw [hstep]) hn'
      simp only [runSteps, List.foldl_cons] at h1 h2 ⊢
      rw [h1, h2, hstep]
      exact ⟨rfl, rfl⟩

/-- Witness of C6: three surviving events with the timer firing in between. -/
theorem debounce_one_rebuild_witness :
    (runSteps ["vendor/".toList] Watch.init
        [.startup, .change "/w/main.go".toList, .change "/w/a.go".toList, .timerFire,
          .change "/w/main.go".toList]).scheduled = Watch.init.scheduled + 1 ∧
      (runSteps ["vendor/".toList] Watch.init
        [.startup, .change "/w/main.go".toList, .change "/w/a.go".toList, .timerFire,
          .change "/w/main.go".toList]).dirty = true :=
  debounce_one_rebuild ["vendor/".toList] _ Watch.init rfl (by decide)
    (fun p hp => by
      simp at hp
      rcases hp with h | h | h <;> subst h <;> decide)
    ⟨"/w/main.go".toList, by decide⟩

/-- The failing run of C7: the initial build is started at start-up without
setting `dirty`; a change event handled while it runs is accepted, and when its
timer fires two rebuild cycles are in progress. -/
theorem two_cycles_in_progress :
    (runSteps [] Watch.init [.startup, .change "/w/main.go".toList, .timerFire]).inProgress = 2 := by
  decide

/-- The failing run of C9: with the rule `gen.go` and `dirty = false`, the
event on `/w/gen.go` is discarded by the rule, yet it leaves `dirty` set with no
rebuild scheduled; the later event on `/w/main.go`, which survives the filter,
is dropped and schedules nothing. -/
theorem discarded_event_sets_dirty :
    survives ["gen.go".toList] "/w/gen.go".toList = false ∧
      onChange ["gen.go".toList] "/w/gen.go".toList Watch.init =
        { Watch.init with dirty := true } ∧
      survives ["gen.go".toList] "/w/main.go".toList = true ∧
      (runSteps ["gen.go".toList] Watch.init
        [.change "/w/gen.go".toList, .change "/w/main.go".toList]).scheduled = 0 := by
  decide

/-! ## `App.Run`: a failed build -/

/-- C8. When the compiler returns an error, the cycle performs no kill and
no start, and the supervisor (its process handle included) is unchanged. -/
theorem run_build_error (app : App) (packed : List Char) (o : Outcomes) (s : Supervisor)
    (h : o.buildErr = true) :
    (app.Run packed o s).1 = s ∧ (app.Run packed o s).1.process = s.process ∧
      ∀ a ∈ (app.Run packed o s).2, a.isKill = false ∧ a.isStart = false := by
  have key : (app.Run packed o s).1 = s ∧
      ∀ a ∈ (app.Run packed o s).2, a.isKill = false ∧ a.isStart = false := by
    unfold App.Run
    simp only [h, if_true]
    cases o.windows <;> cases o.outputExists <;> cases app.Swagger <;> cases o.swaggerErr <;>
      cases o.swaggerDir <;> cases o.packErr <;> simp [Action.isKill, Action.isStart]
  exact ⟨key.1, by rw [key.1], key.2⟩

/-- Witness of C8: a failed build of `main.go` while a process is live. -/
theorem run_build_error_witness :
    (App.Run ⟨"main.go".toList, [], [], false⟩ "data-swagger.go".toList
        ⟨false, false, false, false, false, true⟩ ⟨some ⟨"bin/main ".toList, true, 0⟩, 1⟩).1 =
        ⟨some ⟨"bin/main ".toList, true, 0⟩, 1⟩ ∧
      (App.Run ⟨"main.go".toList, [], [], false⟩ "data-swagger.go".toList
        ⟨false, false, false, false, false, true⟩
        ⟨some ⟨"bin/main ".toList, true, 0⟩, 1⟩).1.process = some ⟨"bin/main ".toList, true, 0⟩ ∧
      ∀ a ∈ (App.Run ⟨"main.go".toList, [], [], false⟩ "data-swagger.go".toList
        ⟨false, false, false, false, false, true⟩ ⟨some ⟨"bin/main ".toList, true, 0⟩, 1⟩).2,
        a.isKill = false ∧ a.isStart = false :=
  run_build_error _ _ _ _ rfl

/-! ## The watched directories -/

theorem keptDirs_file (rules : List (List Char)) (path n : List Char) :
    keptDirs rules path (.file n) = [] := by
  simp [keptDirs, dirsOf]

theorem keptDirs_dir (rules : List (List Char)) (path n : List Char) (cs : FsForest) :
    keptDirs rules path (.dir n cs) =
      if keep rules path then path :: keptEntries rules path cs else [] := by
  by_cases hk : keep rules path = true
  · simp [keptDirs, keptEntries, dirsOf, hk, List.filter_map, Function.comp_def]
  · simp [keptDirs, dirsOf, hk, List.filter_map, Function.comp_def]

theorem keptEntries_cons (rules : List (List Char)) (path : List Char) (node : FsNode)
    (rest : FsForest) :
    keptEntries rules path (.cons node rest) =
      keptDirs rules (joinPath path node.name) node ++ keptEntries rules path rest := by
  simp [keptDirs, keptEntries, dirsOfEntries]

theorem watchFn_dir (rules : List (List Char)) (path : List Char) (acc : List (List Char)) :
    watchFn rules path true acc =
      if keep rules path then (acc ++ [path], .ok) else (acc, .skipDir) := by
  unfold watchFn keep
  cases startsWith (base path) ".".toList <;>
    cases (rules.any fun pattern => isIgnoreReload pattern path) <;> simp

mutual
theorem walk_watchFn (rules : List (List Char)) :
    ∀ (node : FsNode) (path : List Char) (acc : List (List Char)),
      (walk (watchFn rules) path node acc).1 = acc ++ keptDirs rules path node ∧
        (∀ n, node = .file n → (walk (watchFn rules) path node acc).2 = .ok)
  | .file n, path, acc => by
    simp [walk, watchFn, keptDirs_file]
  | .dir n cs, path, acc => by
    refine ⟨?_, fun m hm => by cases hm⟩
    rw [walk, watchFn_dir, keptDirs_dir]
    by_cases hk : keep rules path = true
    · simp only [hk, if_true]
      rw [walkEntries_watchFn rules cs path (acc ++ [path])]
      simp
    · simp [hk]
theorem walkEntries_watchFn (rules : List (List Char)) :
    ∀ (forest : FsForest) (path : List Char) (acc : List (List Char)),
      walkEntries (watchFn rules) path forest acc = (acc ++ keptEntries rules path forest, .ok)
  | .nil, path, acc => by
    simp [walkEntries, keptEntries, dirsOfEntries]
  | .cons (.file n) rest, path, acc => by
    have h := walk_watchFn rules (.file n) (joinPath path n) acc
    have h2 := h.2 n rfl
    have h1 := h.1
    rw [walkEntries]
    cases hw : walk (watchFn rules) (joinPath path n) (.file n) acc with
    | mk s' r =>
      rw [hw] at h1 h2
      simp only at h1 h2
      subst h2
      simp only
      rw [walkEntries_watchFn rules rest path s', keptEntries_cons, h1]
      simp [FsNode.name, keptDirs_file]
  | .cons (.dir n cs) rest, path, acc => by
    have h1 := (walk_watchFn rules (.dir n cs) (joinPath path n) acc).1
    rw [walkEntries, walkEntries_watchFn rules rest path _, keptEntries_cons, h1]
    simp [FsNode.name]
end

/-- An unrooted literal rule that ends in `/` matches every path that has the
rule after nothing or after whole directories, whatever follows it, as long as
the path has no newline. -/
theorem litRegex_matches_dir (x d t : List Char) (hh : x.head? ≠ some '/')
    (hl : x.getLast? = some '/') (hd : d = [] ∨ d.getLast? = some '/')
    (hn : '\n' ∉ d) (ht : '\n' ∉ t) : (litRegex x).matchString (d ++ (x ++ t)) = true := by
  obtain ⟨b1, h1⟩ := run_gAnyDir d (x ++ t) hd hn
  have h2 : ((b1 && x.isEmpty, t) : Pos) ∈ (catAll (x.map Regex.lit)).run (b1, x ++ t) :=
    mem_run_lits.mpr ⟨rfl, rfl⟩
  obtain ⟨b3, h3⟩ := run_tail_rest (b1 && x.isEmpty) t ht
  have hr : litRegex x = Regex.cat .bol (catAll (gAnyDir :: x.map Regex.lit ++
        [gRest, Regex.eol])) := by
    simp [litRegex, hh, hl, catAll]
  rw [hr]
  apply matchString_bol_of_mem (b3, [])
  rw [List.cons_append, mem_run_catAll_cons]
  exact ⟨_, h1, mem_run_catAll_append.mpr ⟨_, h2, h3⟩⟩

mutual
theorem keptDirs_keep (rules : List (List Char)) :
    ∀ (node : FsNode) (path d : List Char), d ∈ keptDirs rules path node → keep rules d = true
  | .file n, path, d => by
    intro h
    rw [keptDirs_file] at h
    simp at h
  | .dir n cs, path, d => by
    intro h
    rw [keptDirs_dir] at h
    by_cases hk : keep rules path = true
    · rw [if_pos hk] at h
      rcases List.mem_cons.mp h with h | h
      · rw [h]; exact hk
      · exact keptEntries_keep rules cs path d h
    · rw [if_neg hk] at h
      simp at h
theorem keptEntries_keep (rules : List (List Char)) :
    ∀ (forest : FsForest) (path d : List Char),
      d ∈ keptEntries rules path forest → keep rules d = true
  | .nil, path, d => by
    intro h
    simp [keptEntries, dirsOfEntries] at h
  | .cons node rest, path, d => by
    intro h
    rw [keptEntries_cons] at h
    rcases List.mem_append.mp h with h | h
    · exact keptDirs_keep rules node _ d h
    · exact keptEntries_keep rules rest path d h
end

theorem joinPath_shape (dir name : List Char) :
    ∃ pre, joinPath dir name = pre ++ name ∧ (pre = [] ∨ pre.getLast? = some '/') ∧
      ∀ c ∈ pre, c ∈ joinPath dir name := by
  unfold joinPath
  by_cases h : dir.getLast? = some '/'
  · rw [if_pos h]
    exact ⟨dir, rfl, Or.inr h, fun c hc => List.mem_append_left _ hc⟩
  · rw [if_neg h]
    refine ⟨dir ++ ['/'], by simp, Or.inr (by simp), ?_⟩
    intro c hc
    rcases List.mem_append.mp hc with hc | hc
    · exact List.mem_append_left _ hc
    · simp at hc; subst hc; simp

/-- C10 (as amended). With at least one ignore rule, the watch set is not
recursive and is the list of the directories of the tree, in the order of the
walk, all of whose ancestors from the root down, and themselves, have a base
name that does not start with `.` and a path that no rule matches. With the
rule `vendor/`, no directory below `<root>/vendor` whose path has no newline is
in the watch set. -/
theorem watchSet_with_rules (root : List Char) (tree : FsNode) (rules : List (List Char))
    (h : rules ≠ []) :
    watchSet root tree rules = (keptDirs rules root tree, false) ∧
      ("vendor/".toList ∈ rules →
        ∀ d ∈ (watchSet root tree rules).1, '\n' ∉ d →
          ¬ (joinPath root "vendor".toList ++ ['/']) <+: d) := by
  have hl : rules.length > 0 := List.length_pos.mpr h
  have heq : watchSet root tree rules = (keptDirs rules root tree, false) := by
    unfold watchSet
    rw [if_pos hl, (walk_watchFn rules tree root []).1]
    simp
  refine ⟨heq, ?_⟩
  intro hv d hd hn hpre
  rw [heq] at hd
  have hk := keptDirs_keep rules tree root d hd
  simp only [keep, Bool.and_eq_true, Bool.not_eq_true', List.any_eq_false] at hk
  have hno := hk.2 _ hv
  obtain ⟨t, rfl⟩ := hpre
  obtain ⟨pre, hj, hshape, hmem⟩ := joinPath_shape root "vendor".toList
  have hd' : joinPath root "vendor".toList ++ ['/'] ++ t = pre ++ ("vendor/".toList ++ t) := by
    rw [hj]; simp
  have hm := litRegex_matches_dir "vendor/".toList pre t (by decide) (by decide) hshape
    (fun hc => hn (List.mem_append_left _ (List.mem_append_left _ (hmem _ hc))))
    (fun hc => hn (List.mem_append_right _ hc))
  rw [isIgnoreReload_literal _ _ (by decide) (by decide) (by decide) (by decide), hd', hm] at hno
  exact absurd hno (by decide)

/-- Witness of C10 (as amended): a project with `vendor/pkg`, `.git` and `src`. -/
theorem watchSet_with_rules_witness :
    watchSet "/w".toList
        (.dir "w".toList (.cons (.dir "vendor".toList (.cons (.dir "pkg".toList .nil) .nil))
          (.cons (.dir ".git".toList .nil) (.cons (.file "main.go".toList)
            (.cons (.dir "src".toList .nil) .nil)))))
        ["vendor/".toList] =
      (keptDirs ["vendor/".toList] "/w".toList
        (.dir "w".toList (.cons (.dir "vendor".toList (.cons (.dir "pkg".toList .nil) .nil))
          (.cons (.dir ".git".toList .nil) (.cons (.file "main.go".toList)
            (.cons (.dir "src".toList .nil) .nil))))), false) ∧
      ("vendor/".toList ∈ ["vendor/".toList] →
        ∀ d ∈ (watchSet "/w".toList
          (.dir "w".toList (.cons (.dir "vendor".toList (.cons (.dir "pkg".toList .nil) .nil))
            (.cons (.dir ".git".toList .nil) (.cons (.file "main.go".toList)
              (.cons (.dir "src".toList .nil) .nil)))))
          ["vendor/".toList]).1, '\n' ∉ d →
          ¬ (joinPath "/w".toList "vendor".toList ++ ['/']) <+: d) :=
  watchSet_with_rules _ _ _ (by decide)

/-- Counterexample to C10 as stated: under a root whose name ends in a newline
the rule `vendor/` does not match `<root>/vendor/pkg`, because the `.` of
`(|.*/)` matches no newline, and the directory is in the watch set. -/
theorem watchSet_vendor_newline :
    (joinPath "/w\n".toList "vendor".toList ++ ['/']) <+:
        joinPath (joinPath "/w\n".toList "vendor".toList) "pkg".toList ∧
      joinPath (joinPath "/w\n".toList "vendor".toList) "pkg".toList ∈
        (watchSet "/w\n".toList
          (.dir "w\n".toList (.cons (.dir "vendor".toList (.cons (.dir "pkg".toList .nil) .nil))
            .nil))
          ["vendor/".toList]).1 := by
  decide

end GfRun
